import Mathlib

/-!
# Verification of the RL-Scheduling discrete-event scheduling core

This file gives a shallow embedding, in Lean 4, of the scheduling core of the
RL-Scheduling repository (`env.py`, `utils.py`, `spark_env/stage.py`) and
proves or refutes the frozen specification claims about it.

Conventions of the embedding:
* Python `dict` / `OrderedDict` values are modelled as association lists
  (`List (κ × α)`): assignment updates the first matching key in place
  (an existing key keeps its position, as in Python 3.7+ dicts) and appends
  a fresh key at the end; `del` removes the first matching key.
  Iteration order of the list is the dict's insertion order.
* Python floats (times, durations) are modelled as rationals `ℚ`;
  `np.nan` sentinels ("field unset") are modelled with `Option`.
* `np.random.randint(n)` (ambient global generator) and
  `self.np_random.randint(...)` (per-episode generator) are modelled by
  passing the drawn values in explicitly: a function `grand : Nat → Nat`
  stands for the ambient generator (`grand n` is the value the next
  `np.random.randint(n)` call returns, with contract `grand n < n`), and a
  plain argument stands for a single draw of the per-episode generator.
* Python exceptions (`assert` failures, `KeyError`, `AttributeError`,
  `TypeError`, `ValueError`) are modelled with `Option`/`Except`: a raised
  exception is `none` / `.error`.
-/

namespace RLSched

/-! ## Association-list dictionaries (Python `dict` / `OrderedDict`) -/

/-- Python dict lookup `d[k]` (first entry with the given key). -/
def alookup {κ α : Type} [DecidableEq κ] : List (κ × α) → κ → Option α
  | [], _ => none
  | (k, v) :: rest, key => if k = key then some v else alookup rest key

/-- Python dict assignment `d[k] = v`: an existing key is updated in place
(keeping its position), a fresh key is appended at the end. -/
def aset {κ α : Type} [DecidableEq κ] : List (κ × α) → κ → α → List (κ × α)
  | [], key, v => [(key, v)]
  | (k, w) :: rest, key, v =>
      if k = key then (k, v) :: rest else (k, w) :: aset rest key v

/-- Python `del d[k]`: removes the first entry with the given key. -/
def adel {κ α : Type} [DecidableEq κ] : List (κ × α) → κ → List (κ × α)
  | [], _ => []
  | (k, w) :: rest, key => if k = key then rest else (k, w) :: adel rest key

theorem alookup_aset_self {κ α : Type} [DecidableEq κ]
    (l : List (κ × α)) (k : κ) (v : α) : alookup (aset l k v) k = some v := by
  induction l with
  | nil => simp [aset, alookup]
  | cons p rest ih =>
      obtain ⟨k0, w⟩ := p
      by_cases h : k0 = k <;> simp [aset, alookup, h, ih]

theorem alookup_aset_ne {κ α : Type} [DecidableEq κ]
    (l : List (κ × α)) (k d : κ) (v : α) (hne : k ≠ d) :
    alookup (aset l k v) d = alookup l d := by
  induction l with
  | nil => simp [aset, alookup, hne]
  | cons p rest ih =>
      obtain ⟨k0, w⟩ := p
      by_cases h : k0 = k
      · subst h
        simp [aset, alookup, hne]
      · simp [aset, alookup, h, ih]

/-! ## `Task` (env.py lines 13–59) -/

/-- Embedding of `env.py`'s `Task`.  `start_time`/`finish_time` are `none`
while the Python fields hold `np.nan`; `executor` is the index of the
dispatched executor (`None` before scheduling).  The executor back-binding
(`executor.task/stage/job`, env.py lines 44–47) lives in the executor's own
state and is modelled at the `Stage.schedule` level. -/
structure Task where
  idx : Nat
  duration : ℚ
  start_time : Option ℚ
  finish_time : Option ℚ
  executor : Option Nat
  deriving DecidableEq, Repr

/-- `Task.__init__` (env.py lines 17–31): start/finish are `np.nan`,
no executor bound. -/
def Task.init (idx : Nat) (duration : ℚ) : Task :=
  { idx := idx, duration := duration,
    start_time := none, finish_time := none, executor := none }

/-- `Task.schedule` (env.py lines 33–47).  The `assert` on line 38 demands
that start time, finish time and executor are all still unset; on success all
three are set together, with `finish_time = start_time + duration`. -/
def Task.schedule (t : Task) (start_time : ℚ) (duration : ℚ) (executor : Nat) :
    Except String Task :=
  if t.start_time = none ∧ t.finish_time = none ∧ t.executor = none then
    .ok { t with
            start_time := some start_time,
            duration := duration,
            finish_time := some (start_time + duration),
            executor := some executor }
  else .error "AssertionError"

/-- `Task.reset` (env.py lines 58–59). -/
def Task.reset (t : Task) : Task :=
  { t with start_time := none, finish_time := none, executor := none }

/-- `Task.get_duration` (env.py lines 49–56).  The guard is
`np.isnan(self.start_time) or (self.time_horizon < self.start_time)`:
when `start_time` is `nan` the `or` short-circuits and the stored duration is
returned; otherwise Python evaluates `self.time_horizon < self.start_time`,
which compares the `TimeHorizon` *object* (not `self.time_horizon.cur_time`)
against a float and raises `TypeError`. -/
def Task.get_duration (t : Task) (cur_time : ℚ) : Except String ℚ :=
  match t.start_time with
  | none => .ok t.duration
  | some _ => .error "TypeError"

/-- A task's stochastic fields are all unset (freshly initialized / reset). -/
def Task.allUnset (t : Task) : Prop :=
  t.start_time = none ∧ t.finish_time = none ∧ t.executor = none

/-- A task's stochastic fields are all set (scheduled). -/
def Task.allSet (t : Task) : Prop :=
  t.start_time ≠ none ∧ t.finish_time ≠ none ∧ t.executor ≠ none

instance (t : Task) : Decidable t.allUnset := by
  unfold Task.allUnset; infer_instance

instance (t : Task) : Decidable t.allSet := by
  unfold Task.allSet; infer_instance

/-- Task states reachable through the operations the source defines on a
task: construction, (successful) scheduling, and reset. -/
inductive Task.Reach : Task → Prop
  | init (idx : Nat) (duration : ℚ) : Task.Reach (Task.init idx duration)
  | schedule {t t' : Task} {start dur : ℚ} {ex : Nat} : Task.Reach t →
      t.schedule start dur ex = .ok t' → Task.Reach t'
  | reset {t : Task} : Task.Reach t → Task.Reach t.reset

theorem Task.schedule_ok_allSet {t t' : Task} {start dur : ℚ} {ex : Nat}
    (h : t.schedule start dur ex = .ok t') :
    t'.start_time = some start ∧ t'.finish_time = some (start + dur) ∧
      t'.executor = some ex := by
  unfold Task.schedule at h
  split at h
  · cases h
    exact ⟨rfl, rfl, rfl⟩
  · cases h

/-- **C8.** For every reachable task the fields `start_time`, `finish_time`,
`executor` are either all unset or all set; on an unscheduled task,
`Task.schedule` succeeds and sets all three together with
`finish_time = start_time + duration`; on a task whose fields are already
set, a second `Task.schedule` call fails with the assertion error of
env.py line 38. -/
theorem task_state_unset_or_set (t : Task) (h : Task.Reach t) :
    (t.allUnset ∨ t.allSet) ∧
    (∀ start dur : ℚ, ∀ ex : Nat, t.allUnset →
      t.schedule start dur ex =
        .ok { t with start_time := some start, duration := dur,
                     finish_time := some (start + dur), executor := some ex }) ∧
    (∀ start dur : ℚ, ∀ ex : Nat, t.allSet →
      t.schedule start dur ex = .error "AssertionError") := by
  refine ⟨?_, ?_, ?_⟩
  · induction h with
    | init idx duration => left; exact ⟨rfl, rfl, rfl⟩
    | schedule hre hok ih =>
        right
        obtain ⟨h1, h2, h3⟩ := Task.schedule_ok_allSet hok
        exact ⟨by simp [h1], by simp [h2], by simp [h3]⟩
    | reset hre ih => left; exact ⟨rfl, rfl, rfl⟩
  · intro start dur ex hu
    unfold Task.schedule
    simp [hu.1, hu.2.1, hu.2.2]
  · intro start dur ex hs
    unfold Task.schedule
    simp [hs.1]

/-- Witness for `task_state_unset_or_set`: a freshly constructed task is
reachable and all-unset; scheduling it once succeeds, a second scheduling of
the result fails. -/
theorem task_state_unset_or_set_witness :
    ((Task.init 0 7).allUnset ∨ (Task.init 0 7).allSet) ∧
    (∀ start dur : ℚ, ∀ ex : Nat, (Task.init 0 7).allUnset →
      (Task.init 0 7).schedule start dur ex =
        .ok { Task.init 0 7 with
                start_time := some start, duration := dur,
                finish_time := some (start + dur), executor := some ex }) ∧
    (∀ start dur : ℚ, ∀ ex : Nat, (Task.init 0 7).allSet →
      (Task.init 0 7).schedule start dur ex = .error "AssertionError") :=
  task_state_unset_or_set (Task.init 0 7) (Task.Reach.init 0 7)

/-- **C10** (code bug).  `Task.get_duration` is *not* total over scheduled
tasks: the scheduled task with `start_time = 0`, `finish_time = 5` queried at
current time `2` raises `TypeError` (env.py line 54 compares the
`TimeHorizon` object itself, not `.cur_time`, against the float
`start_time`), instead of returning `max 0 (5 - 2)` as the claim states;
the unscheduled branch does return the stored duration. -/
theorem task_get_duration_typeerror :
    Task.get_duration
        { idx := 0, duration := 5, start_time := some 0,
          finish_time := some 5, executor := some 1 } 2 = .error "TypeError" ∧
    Task.get_duration (Task.init 0 7) 2 = .ok 7 :=
  ⟨rfl, rfl⟩

/-! ## More association-list lemmas -/

theorem alookup_mem {κ α : Type} [DecidableEq κ] {l : List (κ × α)} {k : κ} {v : α}
    (h : alookup l k = some v) : (k, v) ∈ l := by
  induction l with
  | nil => simp [alookup] at h
  | cons p rest ih =>
      obtain ⟨k0, w⟩ := p
      by_cases hk : k0 = k
      · subst hk
        simp [alookup] at h
        simp [h]
      · simp [alookup, hk] at h
        exact List.mem_cons_of_mem _ (ih h)

theorem alookup_eq_none_keys {κ α : Type} [DecidableEq κ] {l : List (κ × α)} {k : κ} :
    alookup l k = none ↔ k ∉ l.map Prod.fst := by
  induction l with
  | nil => simp [alookup]
  | cons p rest ih =>
      obtain ⟨k0, w⟩ := p
      by_cases hk : k0 = k
      · subst hk
        simp [alookup]
      · have hne : ¬ k = k0 := fun h => hk h.symm
        simp [alookup, hk, ih, hne]

theorem mem_aset {κ α : Type} [DecidableEq κ] {l : List (κ × α)} {k : κ} {v : α}
    {q : κ × α} (h : q ∈ aset l k v) : q ∈ l ∨ q = (k, v) := by
  induction l with
  | nil => simp [aset] at h; simp [h]
  | cons p rest ih =>
      obtain ⟨k0, w⟩ := p
      by_cases hk : k0 = k
      · subst hk
        simp [aset] at h
        rcases h with h | h
        · right; simp [h]
        · left; exact List.mem_cons_of_mem _ h
      · simp [aset, hk] at h
        rcases h with h | h
        · left; simp [h]
        · rcases ih h with h2 | h2
          · left; exact List.mem_cons_of_mem _ h2
          · right; exact h2

theorem keys_aset_found {κ α : Type} [DecidableEq κ] {l : List (κ × α)} {k : κ}
    {w : α} (v : α) (h : alookup l k = some w) :
    (aset l k v).map Prod.fst = l.map Prod.fst := by
  induction l with
  | nil => simp [alookup] at h
  | cons p rest ih =>
      obtain ⟨k0, w0⟩ := p
      by_cases hk : k0 = k
      · subst hk; simp [aset]
      · simp [alookup, hk] at h
        simp [aset, hk, ih h]

theorem keys_aset_new {κ α : Type} [DecidableEq κ] {l : List (κ × α)} {k : κ}
    (v : α) (h : alookup l k = none) :
    (aset l k v).map Prod.fst = l.map Prod.fst ++ [k] := by
  induction l with
  | nil => simp [aset]
  | cons p rest ih =>
      obtain ⟨k0, w0⟩ := p
      by_cases hk : k0 = k
      · subst hk; simp [alookup] at h
      · simp [alookup, hk] at h
        simp [aset, hk, ih h]

theorem alookup_append {κ α : Type} [DecidableEq κ] (l₁ l₂ : List (κ × α)) (k : κ) :
    alookup (l₁ ++ l₂) k =
      match alookup l₁ k with
      | some v => some v
      | none => alookup l₂ k := by
  induction l₁ with
  | nil => simp [alookup]
  | cons p rest ih =>
      obtain ⟨k0, w⟩ := p
      by_cases hk : k0 = k <;> simp [alookup, hk, ih]

/-! ## `ExecutorCommit` (env.py lines 553–613)

The commitment ledger.  Sources (`src`) are jobs or stages, destinations are
stages; both are identified here by natural-number ids standing for Python's
object identities (all distinct).  `commit` maps a source to an insertion-
ordered map from destination stage to outstanding amount; `stage_commit`
holds the per-destination totals; `backward` is the reverse index
(destination stage to the set of sources that owe it executors). -/

structure ExecutorCommit where
  commit : List (Nat × List (Nat × Int))
  stage_commit : List (Nat × Int)
  backward : List (Nat × List Nat)
  deriving DecidableEq, Repr

/-- The amount a source's map owes a destination (`0` when absent). -/
def lookupZero (m : List (Nat × Int)) (d : Nat) : Int := (alookup m d).getD 0

/-- `ExecutorCommit.__init__` (env.py lines 557–560): three empty dicts. -/
def ExecutorCommit.init : ExecutorCommit := ⟨[], [], []⟩

/-- `ExecutorCommit.add` (env.py lines 565–572).  A missing key in
`self.commit[src]`, `self.stage_commit[stage]` or `self.backward[stage]`
raises `KeyError` (modelled as `none`).  A missing destination entry in
`commit[src]` is first created with amount `0`; then both the per-pair count
and the per-destination total are increased by `amount`, and `src` is added
to the reverse-index set of `stage`. -/
def ExecutorCommit.add (s : ExecutorCommit) (src stage : Nat) (amount : Int) :
    Option ExecutorCommit :=
  match alookup s.commit src with
  | none => none
  | some m =>
    match alookup s.stage_commit stage, alookup s.backward stage with
    | some t, some bs =>
        -- `if stage not in self.commit[src]: self.commit[src][stage] = 0`
        let m1 := if (alookup m stage).isSome then m else m ++ [(stage, 0)]
        -- `self.commit[src][stage] += amount` reads the created-or-existing count
        let c := lookupZero m1 stage
        some { commit := aset s.commit src (aset m1 stage (c + amount)),
               stage_commit := aset s.stage_commit stage (t + amount),
               backward := aset s.backward stage (if src ∈ bs then bs else bs ++ [src]) }
    | _, _ => none

/-- `ExecutorCommit.pop` (env.py lines 574–589).  The two `assert`s on entry
(`src in self.commit`, `len(self.commit[src]) > 0`), the `KeyError` on
`stage_commit[stage]`, and the two non-negativity `assert`s after the
decrements are modelled as `none`.  `stage` is the first (insertion-order)
key of `commit[src]`; both counters are decremented by one, and if the
per-pair count reaches zero the pair entry is deleted and `src` is removed
from the reverse-index set (Python `set.remove`, `KeyError` if absent). -/
def ExecutorCommit.pop (s : ExecutorCommit) (src : Nat) :
    Option (ExecutorCommit × Nat) :=
  match alookup s.commit src with
  | none => none
  | some [] => none
  | some ((stage, c) :: rest) =>
    match alookup s.stage_commit stage with
    | none => none
    | some t =>
      if c - 1 < 0 ∨ t - 1 < 0 then none
      else if c - 1 = 0 then
        match alookup s.backward stage with
        | none => none
        | some bs =>
          if src ∈ bs then
            some ({ commit := aset s.commit src rest,
                    stage_commit := aset s.stage_commit stage (t - 1),
                    backward := aset s.backward stage (bs.erase src) }, stage)
          else none
      else
        some ({ commit := aset s.commit src ((stage, c - 1) :: rest),
                stage_commit := aset s.stage_commit stage (t - 1),
                backward := s.backward }, stage)

/-- `ExecutorCommit.add_job` (env.py lines 591–596): registers the job as a
commitment source and every one of its stages as both a source and a
destination (empty map, zero total, empty reverse-index set). -/
def ExecutorCommit.addJob (s : ExecutorCommit) (job : Nat) (stages : List Nat) :
    ExecutorCommit :=
  stages.foldl
    (fun acc st =>
      { commit := aset acc.commit st [],
        stage_commit := aset acc.stage_commit st 0,
        backward := aset acc.backward st [] })
    { s with commit := aset s.commit job [] }

/-- Sum over all sources of `commit[source][d]`. -/
def sumSrc (commit : List (Nat × List (Nat × Int))) (d : Nat) : Int :=
  (commit.map (fun p => lookupZero p.2 d)).sum

/-- In Python, `add_job` is only ever called with a freshly constructed job:
the job object and its stage objects are new identities, absent from every
ledger dict. -/
def FreshJob (s : ExecutorCommit) (job : Nat) (stages : List Nat) : Prop :=
  alookup s.commit job = none ∧ stages.Nodup ∧ job ∉ stages ∧
  ∀ st ∈ stages, alookup s.commit st = none ∧ alookup s.stage_commit st = none

/-- Ledger states reachable from construction by registering (fresh) jobs and
by any sequence of `add` and `pop` calls.  Amounts passed to `add` are
executor counts, hence non-negative. -/
inductive ExecutorCommit.Reach : ExecutorCommit → Prop
  | init : ExecutorCommit.Reach ExecutorCommit.init
  | addJob {s : ExecutorCommit} (job : Nat) (stages : List Nat) :
      ExecutorCommit.Reach s → FreshJob s job stages →
      ExecutorCommit.Reach (s.addJob job stages)
  | add {s s2 : ExecutorCommit} (src stage : Nat) (amount : Int) :
      ExecutorCommit.Reach s → 0 ≤ amount → s.add src stage amount = some s2 →
      ExecutorCommit.Reach s2
  | pop {s s2 : ExecutorCommit} {stage : Nat} (src : Nat) :
      ExecutorCommit.Reach s → s.pop src = some (s2, stage) →
      ExecutorCommit.Reach s2

/-- The internal well-formedness invariant of the ledger: conservation, all
stored amounts non-negative, inner maps and reverse-index sets duplicate
free. -/
structure ExecutorCommit.Inv (s : ExecutorCommit) : Prop where
  conservation : ∀ d, sumSrc s.commit d = lookupZero s.stage_commit d
  nonneg : ∀ p ∈ s.commit, ∀ q ∈ p.2, (0 : Int) ≤ q.2
  innerNodup : ∀ p ∈ s.commit, (p.2.map Prod.fst).Nodup
  backwardNodup : ∀ p ∈ s.backward, p.2.Nodup

theorem lookupZero_aset_self (m : List (Nat × Int)) (k : Nat) (v : Int) :
    lookupZero (aset m k v) k = v := by
  simp [lookupZero, alookup_aset_self]

theorem lookupZero_aset_ne (m : List (Nat × Int)) {k d : Nat} (v : Int)
    (h : k ≠ d) : lookupZero (aset m k v) d = lookupZero m d := by
  simp [lookupZero, alookup_aset_ne _ _ _ _ h]

theorem sumSrc_aset_found {commit : List (Nat × List (Nat × Int))} {k : Nat}
    {m : List (Nat × Int)} (m' : List (Nat × Int)) (d : Nat)
    (h : alookup commit k = some m) :
    sumSrc (aset commit k m') d =
      sumSrc commit d - lookupZero m d + lookupZero m' d := by
  induction commit with
  | nil => simp [alookup] at h
  | cons p rest ih =>
      obtain ⟨k0, w⟩ := p
      by_cases hk : k0 = k
      · subst hk
        simp [alookup] at h
        subst h
        simp [aset, sumSrc]
        ring
      · simp [alookup, hk] at h
        simp [aset, hk, sumSrc] at ih ⊢
        rw [ih h]
        ring

theorem sumSrc_aset_new {commit : List (Nat × List (Nat × Int))} {k : Nat}
    (m' : List (Nat × Int)) (d : Nat) (h : alookup commit k = none) :
    sumSrc (aset commit k m') d = sumSrc commit d + lookupZero m' d := by
  induction commit with
  | nil => simp [aset, sumSrc]
  | cons p rest ih =>
      obtain ⟨k0, w⟩ := p
      by_cases hk : k0 = k
      · subst hk; simp [alookup] at h
      · simp [alookup, hk] at h
        simp [aset, hk, sumSrc] at ih ⊢
        rw [ih h]
        ring

theorem lookupZero_nonneg {m : List (Nat × Int)}
    (h : ∀ q ∈ m, (0 : Int) ≤ q.2) (d : Nat) : 0 ≤ lookupZero m d := by
  unfold lookupZero
  cases hl : alookup m d with
  | none => simp
  | some v => simpa using h (d, v) (alookup_mem hl)

theorem sumSrc_nonneg {commit : List (Nat × List (Nat × Int))}
    (h : ∀ p ∈ commit, ∀ q ∈ p.2, (0 : Int) ≤ q.2) (d : Nat) :
    0 ≤ sumSrc commit d := by
  unfold sumSrc
  apply List.sum_nonneg
  intro x hx
  obtain ⟨p, hp, rfl⟩ := List.mem_map.mp hx
  exact lookupZero_nonneg (h p hp) d

/-- `add` preserves the ledger invariant (amounts are executor counts,
hence non-negative). -/
theorem ExecutorCommit.Inv.add_preserve {s s2 : ExecutorCommit} {src stage : Nat}
    {amount : Int} (hInv : s.Inv) (ha : 0 ≤ amount)
    (h : s.add src stage amount = some s2) : s2.Inv := by
  unfold ExecutorCommit.add at h
  split at h
  · cases h
  rename_i m hm
  split at h
  rotate_left
  · cases h
  rename_i t bs ht hbs
  simp only [Option.some.injEq] at h
  subst h
  -- facts about the intermediate map m1
  set m1 := if (alookup m stage).isSome then m else m ++ [(stage, 0)] with hm1
  have hmem : (src, m) ∈ s.commit := alookup_mem hm
  have hm1_stage : lookupZero m1 stage = lookupZero m stage := by
    by_cases hp : (alookup m stage).isSome
    · rw [hm1, if_pos hp]
    · rw [hm1, if_neg hp, lookupZero, alookup_append,
        Option.not_isSome_iff_eq_none.mp hp, lookupZero,
        Option.not_isSome_iff_eq_none.mp hp]
      simp [alookup]
  have hm1_ne : ∀ d, d ≠ stage → lookupZero m1 d = lookupZero m d := by
    intro d hd
    by_cases hp : (alookup m stage).isSome
    · rw [hm1, if_pos hp]
    · rw [hm1, if_neg hp, lookupZero, alookup_append]
      cases hq : alookup m d
      · simp [alookup, lookupZero, hq, Ne.symm hd]
      · simp [lookupZero, hq]
  have hcsome : alookup m1 stage = some (lookupZero m1 stage) := by
    by_cases hp : (alookup m stage).isSome
    · obtain ⟨v, hv⟩ := Option.isSome_iff_exists.mp hp
      rw [hm1, if_pos hp, hv, lookupZero, hv]
      rfl
    · rw [hm1, if_neg hp, lookupZero, alookup_append,
        Option.not_isSome_iff_eq_none.mp hp]
      simp [alookup]
  have hm1_mem : ∀ q ∈ m1, q ∈ m ∨ q = (stage, (0 : Int)) := by
    intro q hq
    by_cases hp : (alookup m stage).isSome
    · rw [hm1, if_pos hp] at hq; exact Or.inl hq
    · rw [hm1, if_neg hp] at hq
      rcases List.mem_append.mp hq with hql | hqr
      · exact Or.inl hql
      · simp at hqr; exact Or.inr hqr
  have hm1_keys : (m1.map Prod.fst).Nodup := by
    by_cases hp : (alookup m stage).isSome
    · rw [hm1, if_pos hp]; exact hInv.innerNodup (src, m) hmem
    · rw [hm1, if_neg hp]
      have hnk : stage ∉ m.map Prod.fst :=
        alookup_eq_none_keys.mp (Option.not_isSome_iff_eq_none.mp hp)
      simp only [List.map_append, List.map_cons, List.map_nil]
      refine List.Nodup.append (hInv.innerNodup (src, m) hmem)
        (List.nodup_singleton _) ?_
      intro a ha1 ha2
      simp at ha2
      subst ha2
      exact hnk ha1
  have hmnn : 0 ≤ lookupZero m stage :=
    lookupZero_nonneg (fun q hq => hInv.nonneg (src, m) hmem q hq) stage
  constructor
  · -- conservation
    intro d
    rw [sumSrc_aset_found (aset m1 stage (lookupZero m1 stage + amount)) d hm]
    by_cases hd : d = stage
    · subst hd
      have htz : lookupZero s.stage_commit d = t := by rw [lookupZero, ht]; rfl
      rw [lookupZero_aset_self, lookupZero_aset_self, hInv.conservation d,
        hm1_stage, htz]
      ring
    · rw [lookupZero_aset_ne _ _ (fun hh => hd hh.symm),
        lookupZero_aset_ne _ _ (fun hh => hd hh.symm), hm1_ne d hd,
        hInv.conservation d]
      ring
  · -- nonneg
    intro p hp q hq
    rcases mem_aset hp with hpl | hpe
    · exact hInv.nonneg p hpl q hq
    · subst hpe
      simp only at hq
      rcases mem_aset hq with hql | hqe
      · rcases hm1_mem q hql with hqm | hq0
        · exact hInv.nonneg (src, m) hmem q hqm
        · simp [hq0]
      · subst hqe
        simp only
        rw [hm1_stage]
        exact add_nonneg hmnn ha
  · -- innerNodup
    intro p hp
    rcases mem_aset hp with hpl | hpe
    · exact hInv.innerNodup p hpl
    · subst hpe
      simp only
      rw [keys_aset_found (lookupZero m1 stage + amount) hcsome]
      exact hm1_keys
  · -- backwardNodup
    intro p hp
    rcases mem_aset hp with hpl | hpe
    · exact hInv.backwardNodup p hpl
    · subst hpe
      simp only
      by_cases hs : src ∈ bs
      · rw [if_pos hs]
        exact hInv.backwardNodup (stage, bs) (alookup_mem hbs)
      · rw [if_neg hs]
        refine List.Nodup.append (hInv.backwardNodup (stage, bs) (alookup_mem hbs))
          (List.nodup_singleton _) ?_
        intro a ha1 ha2
        simp at ha2
        subst ha2
        exact hs ha1

theorem alookup_cons_self {κ α : Type} [DecidableEq κ] (k : κ) (v : α)
    (rest : List (κ × α)) : alookup ((k, v) :: rest) k = some v := by
  simp [alookup]

theorem alookup_cons_ne {κ α : Type} [DecidableEq κ] {k d : κ} (v : α)
    (rest : List (κ × α)) (h : k ≠ d) :
    alookup ((k, v) :: rest) d = alookup rest d := by
  simp [alookup, h]

/-- `pop` preserves the ledger invariant. -/
theorem ExecutorCommit.Inv.pop_preserve {s s2 : ExecutorCommit} {src stage : Nat}
    (hInv : s.Inv) (h : s.pop src = some (s2, stage)) : s2.Inv := by
  unfold ExecutorCommit.pop at h
  split at h
  · cases h
  · cases h
  rename_i stage0 c rest hm
  split at h
  · cases h
  rename_i t ht
  split at h
  · cases h
  rename_i hguard
  push_neg at hguard
  obtain ⟨hc1, ht1⟩ := hguard
  have hmem : (src, (stage0, c) :: rest) ∈ s.commit := alookup_mem hm
  have hkeys : ((stage0, c) :: rest).map Prod.fst = stage0 :: rest.map Prod.fst := rfl
  have hnd : (stage0 :: rest.map Prod.fst).Nodup := by
    rw [← hkeys]; exact hInv.innerNodup _ hmem
  have hstage0 : stage0 ∉ rest.map Prod.fst := (List.nodup_cons.mp hnd).1
  have hrest_stage0 : alookup rest stage0 = none := alookup_eq_none_keys.mpr hstage0
  have htz : lookupZero s.stage_commit stage0 = t := by rw [lookupZero, ht]; rfl
  have hmz : lookupZero ((stage0, c) :: rest) stage0 = c := by
    rw [lookupZero, alookup_cons_self]; rfl
  have hmne : ∀ v : Int, ∀ d, d ≠ stage0 →
      lookupZero ((stage0, v) :: rest) d = lookupZero rest d := by
    intro v d hd
    rw [lookupZero, alookup_cons_ne _ _ (Ne.symm hd)]; rfl
  split at h
  · -- c - 1 = 0 : the pair entry and the reverse-index entry are removed
    rename_i hzero
    split at h
    · cases h
    rename_i bs hbs
    split at h
    rotate_left
    · cases h
    rename_i hin
    simp only [Option.some.injEq, Prod.mk.injEq] at h
    obtain ⟨hs2, hstage⟩ := h
    subst hstage
    subst hs2
    constructor
    · intro d
      rw [sumSrc_aset_found rest d hm]
      by_cases hd : d = stage0
      · subst hd
        rw [hmz, lookupZero_aset_self, hInv.conservation d, htz, lookupZero,
          hrest_stage0]
        simp
        omega
      · rw [lookupZero_aset_ne _ _ (fun hh => hd hh.symm), hmne c d hd,
          hInv.conservation d]
        ring
    · intro p hp q hq
      rcases mem_aset hp with hpl | hpe
      · exact hInv.nonneg p hpl q hq
      · subst hpe
        exact hInv.nonneg _ hmem q (List.mem_cons_of_mem _ hq)
    · intro p hp
      rcases mem_aset hp with hpl | hpe
      · exact hInv.innerNodup p hpl
      · subst hpe
        exact (List.nodup_cons.mp hnd).2
    · intro p hp
      rcases mem_aset hp with hpl | hpe
      · exact hInv.backwardNodup p hpl
      · subst hpe
        exact (hInv.backwardNodup (stage0, bs) (alookup_mem hbs)).erase src
  · -- c - 1 ≠ 0 : only the counters change
    rename_i hzero
    simp only [Option.some.injEq, Prod.mk.injEq] at h
    obtain ⟨hs2, hstage⟩ := h
    subst hstage
    subst hs2
    constructor
    · intro d
      rw [sumSrc_aset_found ((stage0, c - 1) :: rest) d hm]
      by_cases hd : d = stage0
      · subst hd
        rw [hmz, lookupZero_aset_self, hInv.conservation d, htz, lookupZero,
          alookup_cons_self]
        simp
      · rw [lookupZero_aset_ne _ _ (fun hh => hd hh.symm), hmne c d hd,
          hmne (c - 1) d hd, hInv.conservation d]
        ring
    · intro p hp q hq
      rcases mem_aset hp with hpl | hpe
      · exact hInv.nonneg p hpl q hq
      · subst hpe
        rcases List.mem_cons.mp hq with hqh | hqt
        · subst hqh; simpa using hc1
        · exact hInv.nonneg _ hmem q (List.mem_cons_of_mem _ hqt)
    · intro p hp
      rcases mem_aset hp with hpl | hpe
      · exact hInv.innerNodup p hpl
      · subst hpe
        exact hnd
    · exact hInv.backwardNodup

/-- Registering a single fresh stage preserves the invariant. -/
theorem ExecutorCommit.Inv.regStage {s : ExecutorCommit} {st : Nat} (hInv : s.Inv)
    (hc : alookup s.commit st = none) (hsc : alookup s.stage_commit st = none) :
    ExecutorCommit.Inv
      ⟨aset s.commit st [], aset s.stage_commit st 0, aset s.backward st []⟩ := by
  constructor
  · intro d
    show sumSrc (aset s.commit st []) d = lookupZero (aset s.stage_commit st 0) d
    rw [sumSrc_aset_new [] d hc]
    have hz : lookupZero [] d = 0 := rfl
    rw [hz]
    by_cases hd : d = st
    · subst hd
      rw [lookupZero_aset_self, hInv.conservation d, lookupZero, hsc]
      simp
    · rw [lookupZero_aset_ne _ _ (fun hh => hd hh.symm), hInv.conservation d]
      ring
  · intro p hp q hq
    rcases mem_aset hp with hpl | hpe
    · exact hInv.nonneg p hpl q hq
    · subst hpe; cases hq
  · intro p hp
    rcases mem_aset hp with hpl | hpe
    · exact hInv.innerNodup p hpl
    · subst hpe; exact List.nodup_nil
  · intro p hp
    rcases mem_aset hp with hpl | hpe
    · exact hInv.backwardNodup p hpl
    · subst hpe; exact List.nodup_nil

/-- Registering a duplicate-free list of fresh stages preserves the
invariant. -/
theorem ExecutorCommit.Inv.regStages {stages : List Nat} :
    ∀ {s : ExecutorCommit}, s.Inv → stages.Nodup →
    (∀ st ∈ stages, alookup s.commit st = none ∧ alookup s.stage_commit st = none) →
    (stages.foldl
      (fun acc st =>
        { commit := aset acc.commit st [],
          stage_commit := aset acc.stage_commit st 0,
          backward := aset acc.backward st [] }) s).Inv := by
  induction stages with
  | nil => intro s hInv _ _; exact hInv
  | cons st rest ih =>
      intro s hInv hnd hf
      simp only [List.foldl_cons]
      have hst := hf st (by simp)
      apply ih (hInv.regStage hst.1 hst.2) (List.nodup_cons.mp hnd).2
      intro st2 hst2
      have hne : st ≠ st2 := by
        intro hh
        exact (List.nodup_cons.mp hnd).1 (hh ▸ hst2)
      have h2 := hf st2 (List.mem_cons_of_mem _ hst2)
      exact ⟨by rw [alookup_aset_ne _ _ _ _ hne]; exact h2.1,
             by rw [alookup_aset_ne _ _ _ _ hne]; exact h2.2⟩

/-- `add_job` with a freshly constructed job preserves the invariant. -/
theorem ExecutorCommit.Inv.addJob_preserve {s : ExecutorCommit} {job : Nat}
    {stages : List Nat} (hInv : s.Inv) (hf : FreshJob s job stages) :
    (s.addJob job stages).Inv := by
  obtain ⟨hjob, hnd, hjns, hfresh⟩ := hf
  unfold ExecutorCommit.addJob
  have hInv0 : ExecutorCommit.Inv { s with commit := aset s.commit job [] } := by
    constructor
    · intro d
      show sumSrc (aset s.commit job []) d = lookupZero s.stage_commit d
      rw [sumSrc_aset_new [] d hjob]
      have hz : lookupZero [] d = 0 := rfl
      rw [hz, hInv.conservation d]
      ring
    · intro p hp q hq
      rcases mem_aset hp with hpl | hpe
      · exact hInv.nonneg p hpl q hq
      · subst hpe; cases hq
    · intro p hp
      rcases mem_aset hp with hpl | hpe
      · exact hInv.innerNodup p hpl
      · subst hpe; exact List.nodup_nil
    · exact hInv.backwardNodup
  apply ExecutorCommit.Inv.regStages hInv0 hnd
  intro st hst
  have hne : job ≠ st := fun hh => hjns (hh ▸ hst)
  exact ⟨by show alookup (aset s.commit job []) st = none
            rw [alookup_aset_ne _ _ _ _ hne]; exact (hfresh st hst).1,
         (hfresh st hst).2⟩

/-- Every reachable ledger state satisfies the invariant. -/
theorem ExecutorCommit.Reach.inv {s : ExecutorCommit} (h : s.Reach) : s.Inv := by
  induction h with
  | init =>
      constructor
      · intro d; rfl
      · intro p hp; cases hp
      · intro p hp; cases hp
      · intro p hp; cases hp
  | addJob job stages hre hf ih => exact ih.addJob_preserve hf
  | add src stage amount hre ha hs ih => exact ih.add_preserve ha hs
  | pop src hre hs ih => exact ih.pop_preserve hs

/-- Functional contract of `pop` on a well-formed ledger: it targets the
insertion-order-first outstanding destination of `src`, decrements the
per-pair count and the per-destination total by one, and when the count
reaches zero it deletes the pair entry and the reverse-index entry. -/
theorem ExecutorCommit.pop_spec {s s2 : ExecutorCommit} {src stage : Nat}
    (hInv : s.Inv) (h : s.pop src = some (s2, stage)) :
    ∃ c rest, alookup s.commit src = some ((stage, c) :: rest) ∧
      alookup s2.commit src = some (if c = 1 then rest else (stage, c - 1) :: rest) ∧
      lookupZero s2.stage_commit stage = lookupZero s.stage_commit stage - 1 ∧
      (c = 1 → ∀ bs2, alookup s2.backward stage = some bs2 → src ∉ bs2) := by
  unfold ExecutorCommit.pop at h
  split at h
  · cases h
  · cases h
  rename_i stage0 c rest hm
  split at h
  · cases h
  rename_i t ht
  split at h
  · cases h
  rename_i hguard
  push_neg at hguard
  obtain ⟨hc1, ht1⟩ := hguard
  have htz : lookupZero s.stage_commit stage0 = t := by rw [lookupZero, ht]; rfl
  split at h
  · rename_i hzero
    split at h
    · cases h
    rename_i bs hbs
    split at h
    rotate_left
    · cases h
    rename_i hin
    simp only [Option.some.injEq, Prod.mk.injEq] at h
    obtain ⟨hs2, hstage⟩ := h
    subst hstage
    subst hs2
    have hc : c = 1 := by omega
    refine ⟨c, rest, hm, ?_, ?_, ?_⟩
    · rw [if_pos hc]
      exact alookup_aset_self _ _ _
    · rw [lookupZero_aset_self, htz]
    · intro _ bs2 hbs2
      rw [alookup_aset_self] at hbs2
      cases hbs2
      exact (hInv.backwardNodup (stage0, bs) (alookup_mem hbs)).not_mem_erase
  · rename_i hzero
    simp only [Option.some.injEq, Prod.mk.injEq] at h
    obtain ⟨hs2, hstage⟩ := h
    subst hstage
    subst hs2
    have hc : c ≠ 1 := by omega
    refine ⟨c, rest, hm, ?_, ?_, ?_⟩
    · rw [if_neg hc]
      exact alookup_aset_self _ _ _
    · rw [lookupZero_aset_self, htz]
    · intro hc2
      exact absurd hc2 hc

/-- **C2.** In every `ExecutorCommit` state reachable by any sequence of
(successful) `add` and `pop` operations after registering fresh jobs, and
for every destination stage, the sum over all sources of
`commit[source][stage]` equals `stage_commit[stage]` and is non-negative;
moreover `pop src` decrements both the per-pair count for the
insertion-order-first outstanding destination of `src` and that
destination's total by exactly one, and deletes the pair entry and the
reverse-index entry when the count reaches zero. -/
theorem executor_commit_ledger_invariant (s : ExecutorCommit) (h : s.Reach) :
    (∀ d, sumSrc s.commit d = lookupZero s.stage_commit d ∧
      0 ≤ lookupZero s.stage_commit d) ∧
    (∀ src s2 stage, s.pop src = some (s2, stage) →
      ∃ c rest, alookup s.commit src = some ((stage, c) :: rest) ∧
        alookup s2.commit src =
          some (if c = 1 then rest else (stage, c - 1) :: rest) ∧
        lookupZero s2.stage_commit stage = lookupZero s.stage_commit stage - 1 ∧
        (c = 1 → ∀ bs2, alookup s2.backward stage = some bs2 → src ∉ bs2)) := by
  have hInv := h.inv
  constructor
  · intro d
    refine ⟨hInv.conservation d, ?_⟩
    rw [← hInv.conservation d]
    exact sumSrc_nonneg hInv.nonneg d
  · intro src s2 stage hp
    exact ExecutorCommit.pop_spec hInv hp

/-- A concrete reachable ledger state: register job `10` with stages
`[0, 1]`, then `add(src := 0, stage := 1, amount := 2)`. -/
def C2WitnessState : ExecutorCommit :=
  ⟨[(10, []), (0, [(1, 2)]), (1, [])], [(0, 0), (1, 2)], [(0, []), (1, [0])]⟩

/-- Witness for `executor_commit_ledger_invariant` at a concrete reachable
state (conservation at destination stage `1`, and the pop contract for a
`pop` from source `0`). -/
theorem executor_commit_ledger_invariant_witness :
    (sumSrc C2WitnessState.commit 1 = lookupZero C2WitnessState.stage_commit 1 ∧
      0 ≤ lookupZero C2WitnessState.stage_commit 1) ∧
    (∃ c rest, alookup C2WitnessState.commit 0 = some ((1, c) :: rest) ∧
      alookup
        (⟨[(10, []), (0, [(1, 1)]), (1, [])], [(0, 0), (1, 1)],
          [(0, []), (1, [0])]⟩ : ExecutorCommit).commit 0 =
        some (if c = 1 then rest else (1, c - 1) :: rest) ∧
      lookupZero
        (⟨[(10, []), (0, [(1, 1)]), (1, [])], [(0, 0), (1, 1)],
          [(0, []), (1, [0])]⟩ : ExecutorCommit).stage_commit 1 =
        lookupZero C2WitnessState.stage_commit 1 - 1 ∧
      (c = 1 → ∀ bs2,
        alookup
          (⟨[(10, []), (0, [(1, 1)]), (1, [])], [(0, 0), (1, 1)],
            [(0, []), (1, [0])]⟩ : ExecutorCommit).backward 1 = some bs2 →
        0 ∉ bs2)) := by
  have hr0 : ExecutorCommit.Reach (ExecutorCommit.init.addJob 10 [0, 1]) :=
    ExecutorCommit.Reach.addJob 10 [0, 1] ExecutorCommit.Reach.init
      (by constructor
          · rfl
          constructor
          · decide
          constructor
          · decide
          · intro st hst
            exact ⟨rfl, rfl⟩)
  have hr : C2WitnessState.Reach :=
    ExecutorCommit.Reach.add 0 1 2 hr0 (by decide) (by decide)
  have hmain := executor_commit_ledger_invariant C2WitnessState hr
  refine ⟨hmain.1 1, ?_⟩
  exact hmain.2 0
    ⟨[(10, []), (0, [(1, 1)]), (1, [])], [(0, 0), (1, 1)], [(0, []), (1, [0])]⟩ 1
    (by decide)

/-! ## `Executor` and `FreeExecutors` (env.py lines 401–497)

Executors, stages, jobs and tasks are identified by natural-number ids
standing for Python object identities.  A state bundles the
`FreeExecutors.job2bundled_executors` dict (`groups`, key `none` being the
free pool), each executor's `task`/`stage`/`job` attributes (`binds`), and
the `Job.executors` / `Stage.executors` ordered sets that
`Executor.detach_job` / `Executor.detach_stage` mutate. -/

/-- An executor's `task`/`stage`/`job` attributes (env.py line 407). -/
structure ExecBind where
  task : Option Nat
  stage : Option Nat
  job : Option Nat
  deriving DecidableEq, Repr

structure FreeState where
  groups : List (Option Nat × List Nat)
  binds : List (Nat × ExecBind)
  jobExecs : List (Nat × List Nat)
  stageExecs : List (Nat × List Nat)
  deriving DecidableEq, Repr

/-- `utils.OrderedSet.add` (utils.py lines 39–40): a present item keeps its
position, a new item is appended. -/
def osAdd (l : List Nat) (e : Nat) : List Nat := if e ∈ l then l else l ++ [e]

/-- `Executor.detach_stage` (env.py lines 409–415): remove the executor from
its bound stage's executor set (when present), then clear its `stage` and
`task` attributes. -/
def detach_stage (s : FreeState) (e : Nat) : FreeState :=
  let b := (alookup s.binds e).getD ⟨none, none, none⟩
  let se := match b.stage with
    | some st =>
        match alookup s.stageExecs st with
        | some l => if e ∈ l then aset s.stageExecs st (l.erase e) else s.stageExecs
        | none => s.stageExecs
    | none => s.stageExecs
  { s with stageExecs := se,
           binds := aset s.binds e { b with stage := none, task := none } }

/-- `Executor.detach_job` (env.py lines 417–424): remove the executor from
its bound job's executor set (when present), clear its `job` attribute, then
cascade to `detach_stage`. -/
def detach_job (s : FreeState) (e : Nat) : FreeState :=
  let b := (alookup s.binds e).getD ⟨none, none, none⟩
  let je := match b.job with
    | some j =>
        match alookup s.jobExecs j with
        | some l => if e ∈ l then aset s.jobExecs j (l.erase e) else s.jobExecs
        | none => s.jobExecs
    | none => s.jobExecs
  detach_stage { s with jobExecs := je,
                        binds := aset s.binds e { b with job := none } } e

/-- `FreeExecutors.add` (env.py lines 464–473): for the free pool
(`job = none`) fully detach the executor's job binding first, otherwise
detach only its stage binding; then insert the executor into the target
job's group (`KeyError` if the group does not exist).  Note that neither
detach operation removes the executor from any `job2bundled_executors`
group. -/
def FreeExecutors.add (s : FreeState) (job : Option Nat) (e : Nat) :
    Option FreeState :=
  let s1 := match job with
    | none => detach_job s e
    | some _ => detach_stage s e
  match alookup s1.groups job with
  | none => none
  | some g => some { s1 with groups := aset s1.groups job (osAdd g e) }

/-- The loop body of `FreeExecutors.remove_job` (env.py lines 488–490):
`executor.detach_job(); self.job2bundled_executors[None].add(executor)`. -/
def removeJobStep : Option FreeState → Nat → Option FreeState
  | none, _ => none
  | some st, e =>
    match alookup (detach_job st e).groups none with
    | none => none
    | some fg =>
        some { detach_job st e with
               groups := aset (detach_job st e).groups none (osAdd fg e) }

/-- `FreeExecutors.remove_job` (env.py lines 484–491): move every executor of
the job's group into the free pool (detaching each from the job), then delete
the group. -/
def FreeExecutors.remove_job (s : FreeState) (job : Nat) : Option FreeState :=
  match alookup s.groups (some job) with
  | none => none
  | some g =>
    match g.foldl removeJobStep (some s) with
    | none => none
    | some s2 => some { s2 with groups := adel s2.groups (some job) }

/-- The number of groups in a group map that contain executor `e`. -/
def memCount (l : List (Option Nat × List Nat)) (e : Nat) : Nat :=
  l.countP (fun p => decide (e ∈ p.2))

/-- The number of `job2bundled_executors` groups an executor belongs to. -/
def groupCount (s : FreeState) (e : Nat) : Nat := memCount s.groups e

theorem aset_lookup_self {κ α : Type} [DecidableEq κ] {l : List (κ × α)} {k : κ}
    {v : α} (h : alookup l k = some v) : aset l k v = l := by
  induction l with
  | nil => simp [alookup] at h
  | cons p rest ih =>
      obtain ⟨k0, w⟩ := p
      by_cases hk : k0 = k
      · subst hk
        simp [alookup] at h
        simp [aset, h]
      · simp [alookup, hk] at h
        simp [aset, hk, ih h]

theorem aset_aset_same {κ α : Type} [DecidableEq κ] (l : List (κ × α)) (k : κ)
    (v w : α) : aset (aset l k v) k w = aset l k w := by
  induction l with
  | nil => simp [aset]
  | cons p rest ih =>
      obtain ⟨k0, w0⟩ := p
      by_cases hk : k0 = k <;> simp [aset, hk, ih]

theorem countP_aset_found {κ α : Type} [DecidableEq κ] (f : α → Bool)
    {l : List (κ × α)} {k : κ} {g : α} (v : α) (h : alookup l k = some g) :
    (aset l k v).countP (fun p => f p.2) + (if f g then 1 else 0) =
      l.countP (fun p => f p.2) + (if f v then 1 else 0) := by
  induction l with
  | nil => simp [alookup] at h
  | cons p rest ih =>
      obtain ⟨k0, w⟩ := p
      by_cases hk : k0 = k
      · subst hk
        simp [alookup] at h
        rw [← h]
        simp only [aset, if_pos rfl, List.countP_cons]
        cases hfw : f w <;> cases hfv : f v <;> simp [hfw, hfv] <;> omega
      · simp [alookup, hk] at h
        simp only [aset, if_neg hk, List.countP_cons]
        have := ih h
        cases hfw : f w <;> simp [hfw] <;> omega

theorem countP_adel_found {κ α : Type} [DecidableEq κ] (f : α → Bool)
    {l : List (κ × α)} {k : κ} {g : α} (h : alookup l k = some g) :
    (adel l k).countP (fun p => f p.2) + (if f g then 1 else 0) =
      l.countP (fun p => f p.2) := by
  induction l with
  | nil => simp [alookup] at h
  | cons p rest ih =>
      obtain ⟨k0, w⟩ := p
      by_cases hk : k0 = k
      · subst hk
        simp [alookup] at h
        rw [← h]
        simp only [adel, if_pos rfl, List.countP_cons]
        cases hfw : f w <;> simp [hfw]
      · simp [alookup, hk] at h
        simp only [adel, if_neg hk, List.countP_cons]
        have := ih h
        cases hfw : f w <;> simp [hfw] <;> omega

theorem mem_osAdd {l : List Nat} {e x : Nat} :
    x ∈ osAdd l e ↔ x ∈ l ∨ x = e := by
  unfold osAdd
  by_cases he : e ∈ l
  · simp [he]
    intro hx
    subst hx
    exact he
  · simp [he]

theorem mem_foldl_osAdd {g : List Nat} :
    ∀ {acc : List Nat} {x : Nat}, x ∈ g.foldl osAdd acc ↔ x ∈ acc ∨ x ∈ g := by
  induction g with
  | nil => simp
  | cons e rest ih =>
      intro acc x
      simp only [List.foldl_cons, ih, mem_osAdd]
      constructor
      · rintro ((h | h) | h)
        · exact Or.inl h
        · subst h; exact Or.inr (by simp)
        · exact Or.inr (List.mem_cons_of_mem _ h)
      · rintro (h | h)
        · exact Or.inl (Or.inl h)
        · rcases List.mem_cons.mp h with h | h
          · subst h; exact Or.inl (Or.inr rfl)
          · exact Or.inr h

theorem two_le_countP {α : Type} (P : α → Bool) {l : List α} {a b : α}
    (ha : a ∈ l) (hb : b ∈ l) (hab : a ≠ b) (hPa : P a) (hPb : P b) :
    2 ≤ l.countP P := by
  induction l with
  | nil => cases ha
  | cons x t ih =>
      rw [List.countP_cons]
      rcases List.mem_cons.mp ha with hax | hat
      · have hPx : P x = true := hax ▸ hPa
        have hbt : b ∈ t := by
          rcases List.mem_cons.mp hb with hbx | hbt
          · exact absurd (hax.trans hbx.symm) hab
          · exact hbt
        have h1 : 0 < t.countP P := List.countP_pos_iff.mpr ⟨b, hbt, hPb⟩
        rw [if_pos hPx]
        omega
      · rcases List.mem_cons.mp hb with hbx | hbt
        · have hPx : P x = true := hbx ▸ hPb
          have h1 : 0 < t.countP P := List.countP_pos_iff.mpr ⟨a, hat, hPa⟩
          rw [if_pos hPx]
          omega
        · have := ih hat hbt
          omega

theorem memCount_aset {l : List (Option Nat × List Nat)} {k : Option Nat}
    {g : List Nat} (v : List Nat) (e : Nat) (h : alookup l k = some g) :
    memCount (aset l k v) e + (if e ∈ g then 1 else 0) =
      memCount l e + (if e ∈ v then 1 else 0) := by
  have := countP_aset_found (fun xs => decide (e ∈ xs)) v h
  simpa [memCount] using this

theorem memCount_adel {l : List (Option Nat × List Nat)} {k : Option Nat}
    {g : List Nat} (e : Nat) (h : alookup l k = some g) :
    memCount (adel l k) e + (if e ∈ g then 1 else 0) = memCount l e := by
  have := countP_adel_found (fun xs => decide (e ∈ xs)) h
  simpa [memCount] using this

theorem memCount_eq_zero {l : List (Option Nat × List Nat)} {e : Nat}
    (h : memCount l e = 0) : ∀ p ∈ l, e ∉ p.2 := by
  intro p hp hep
  have := List.countP_eq_zero.mp h p hp
  simp at this
  exact this hep

theorem detach_stage_groups (s : FreeState) (e : Nat) :
    (detach_stage s e).groups = s.groups := rfl

theorem detach_job_groups (s : FreeState) (e : Nat) :
    (detach_job s e).groups = s.groups := rfl

theorem removeJobStep_some (st : FreeState) (e : Nat) {fg : List Nat}
    (hfg : alookup st.groups none = some fg) :
    removeJobStep (some st) e =
      some { detach_job st e with groups := aset st.groups none (osAdd fg e) } := by
  simp only [removeJobStep]
  rw [detach_job_groups, hfg]

/-- The per-executor loop of `remove_job` succeeds and only extends the free
pool group with the iterated executors. -/
theorem remove_job_fold (g : List Nat) :
    ∀ (st : FreeState) (fg : List Nat), alookup st.groups none = some fg →
    ∃ stF : FreeState,
      g.foldl removeJobStep (some st) = some stF ∧
      stF.groups = aset st.groups none (g.foldl osAdd fg) := by
  induction g with
  | nil =>
      intro st fg hfg
      exact ⟨st, rfl, (aset_lookup_self hfg).symm⟩
  | cons e p ih =>
      intro st fg hfg
      simp only [List.foldl_cons]
      rw [removeJobStep_some st e hfg]
      have hlook : alookup
          ({ detach_job st e with
              groups := aset st.groups none (osAdd fg e) } : FreeState).groups
          none = some (osAdd fg e) := alookup_aset_self _ _ _
      obtain ⟨stF, hfold, hgroups⟩ := ih _ (osAdd fg e) hlook
      refine ⟨stF, hfold, ?_⟩
      rw [hgroups]
      show aset (aset st.groups none (osAdd fg e)) none (p.foldl osAdd (osAdd fg e)) =
        aset st.groups none ((e :: p).foldl osAdd fg)
      rw [aset_aset_same]
      rfl

/-- Concrete `FreeExecutors` state for the C3 counterexample: executor `0`
sits in the free pool (`none` group); job `1` has an (empty) group. -/
def C3State : FreeState :=
  { groups := [(none, [0]), (some 1, [])],
    binds := [(0, ⟨none, none, none⟩)],
    jobExecs := [(1, [])],
    stageExecs := [] }

/-- **C3** (counterexample).  Calling `FreeExecutors.add` with job `1` on
executor `0`, which currently belongs to the free-pool group, leaves the
executor in *two* groups (the free pool and job `1`'s group), not exactly
one: the `detach` calls inside `add` clear the executor's own bindings and
the `Job.executors` sets, but never remove it from its current
`job2bundled_executors` group. -/
theorem free_executors_add_two_groups :
    FreeExecutors.add C3State (some 1) 0 =
      some { groups := [(none, [0]), (some 1, [0])],
             binds := [(0, ⟨none, none, none⟩)],
             jobExecs := [(1, [])],
             stageExecs := [] } ∧
    groupCount
      { groups := [(none, [0]), (some 1, [0])],
        binds := [(0, ⟨none, none, none⟩)],
        jobExecs := [(1, [])],
        stageExecs := [] } 0 = 2 ∧
    groupCount C3State 0 = 1 := by
  refine ⟨?_, by decide, by decide⟩
  decide

/-- **C3** (amended).  `FreeExecutors.add` inserts the executor into the
target group without removing it from any other group, so exclusivity is
preserved by `add` exactly when the executor is in no group at call time
(the driver must first take it out via `pop`/`remove`); in that case the
executor ends up in exactly one group.  `FreeExecutors.remove_job` preserves
every executor's group-membership count (each evicted executor leaves the
deleted group and enters the free pool). -/
theorem free_executors_exclusivity_amended :
    (∀ (s s2 : FreeState) (job : Option Nat) (e : Nat),
      groupCount s e = 0 → FreeExecutors.add s job e = some s2 →
      groupCount s2 e = 1) ∧
    (∀ (s s2 : FreeState) (job : Nat) (fg0 : List Nat),
      alookup s.groups none = some fg0 →
      (∀ x, groupCount s x ≤ 1) →
      FreeExecutors.remove_job s job = some s2 →
      ∀ x, groupCount s2 x = groupCount s x) := by
  constructor
  · intro s s2 job e h0 hadd
    unfold FreeExecutors.add at hadd
    cases job with
    | none =>
        simp only at hadd
        rw [detach_job_groups] at hadd
        cases hg : alookup s.groups none with
        | none => rw [hg] at hadd; cases hadd
        | some g =>
            rw [hg] at hadd
            simp only [Option.some.injEq] at hadd
            subst hadd
            show memCount (aset s.groups none (osAdd g e)) e = 1
            have hkey := memCount_aset (osAdd g e) e hg
            have hng : e ∉ g := memCount_eq_zero h0 (none, g) (alookup_mem hg)
            have hin : e ∈ osAdd g e := mem_osAdd.mpr (Or.inr rfl)
            rw [if_neg hng, if_pos hin] at hkey
            have h0r : memCount s.groups e = 0 := h0
            omega
    | some j =>
        simp only at hadd
        rw [detach_stage_groups] at hadd
        cases hg : alookup s.groups (some j) with
        | none => rw [hg] at hadd; cases hadd
        | some g =>
            rw [hg] at hadd
            simp only [Option.some.injEq] at hadd
            subst hadd
            show memCount (aset s.groups (some j) (osAdd g e)) e = 1
            have hkey := memCount_aset (osAdd g e) e hg
            have hng : e ∉ g := memCount_eq_zero h0 (some j, g) (alookup_mem hg)
            have hin : e ∈ osAdd g e := mem_osAdd.mpr (Or.inr rfl)
            rw [if_neg hng, if_pos hin] at hkey
            have h0r : memCount s.groups e = 0 := h0
            omega
  · intro s s2 job fg0 hfg hexcl hrem x
    unfold FreeExecutors.remove_job at hrem
    split at hrem
    · cases hrem
    rename_i g hg
    split at hrem
    · cases hrem
    rename_i stF0 hfold0
    simp only [Option.some.injEq] at hrem
    subst hrem
    have hgroups0 : stF0.groups = aset s.groups none (g.foldl osAdd fg0) := by
      obtain ⟨stF, hfold, hgroups⟩ := remove_job_fold g s fg0 hfg
      obtain rfl : stF0 = stF := Option.some.inj (hfold0.symm.trans hfold)
      exact hgroups
    show memCount (adel stF0.groups (some job)) x = memCount s.groups x
    rw [hgroups0]
    have hmemF : x ∈ g.foldl osAdd fg0 ↔ x ∈ fg0 ∨ x ∈ g := mem_foldl_osAdd
    have hlook2 : alookup (aset s.groups none (g.foldl osAdd fg0)) (some job) =
        some g := by
      rw [alookup_aset_ne _ _ _ _ (by simp)]
      exact hg
    have h1 := memCount_adel x hlook2
    have h2 := memCount_aset (g.foldl osAdd fg0) x hfg
    by_cases hxg : x ∈ g
    · have hxF : x ∈ g.foldl osAdd fg0 := hmemF.mpr (Or.inr hxg)
      have hxfg0 : x ∉ fg0 := by
        intro hxfg
        have hne : ((none : Option Nat), fg0) ≠ (some job, g) := by simp
        have h2le := two_le_countP (fun p => decide (x ∈ p.2))
          (alookup_mem hfg) (alookup_mem hg) hne (by simpa) (by simpa)
        have := hexcl x
        unfold groupCount memCount at this
        omega
      rw [if_pos hxg] at h1
      rw [if_neg hxfg0, if_pos hxF] at h2
      omega
    · have hxF : (x ∈ g.foldl osAdd fg0) ↔ x ∈ fg0 := by
        rw [hmemF]
        simp [hxg]
      rw [if_neg hxg] at h1
      by_cases hxf : x ∈ fg0
      · rw [if_pos hxf, if_pos (hxF.mpr hxf)] at h2
        omega
      · rw [if_neg hxf, if_neg (fun hh => hxf (hxF.mp hh))] at h2
        omega

/-- Witness for `free_executors_exclusivity_amended`: adding executor `2`
(in no group) to job `1`'s group puts it in exactly one group, and removing
job `1` preserves the membership count of executor `0`. -/
theorem free_executors_exclusivity_amended_witness :
    groupCount
      (({ groups := [(none, []), (some 1, [0, 2])],
          binds := [(0, ⟨none, none, some 1⟩), (2, ⟨none, none, none⟩)],
          jobExecs := [(1, [0])],
          stageExecs := [] } : FreeState)) 2 = 1 ∧
    groupCount
      (({ groups := [(none, [0])],
          binds := [(0, ⟨none, none, none⟩)],
          jobExecs := [(1, [])],
          stageExecs := [] } : FreeState)) 0 =
      groupCount
        (({ groups := [(none, []), (some 1, [0])],
            binds := [(0, ⟨none, none, some 1⟩)],
            jobExecs := [(1, [0])],
            stageExecs := [] } : FreeState)) 0 := by
  constructor
  · exact free_executors_exclusivity_amended.1
      { groups := [(none, []), (some 1, [0])],
        binds := [(0, ⟨none, none, some 1⟩), (2, ⟨none, none, none⟩)],
        jobExecs := [(1, [0])],
        stageExecs := [] }
      _ (some 1) 2 (by decide) (by decide)
  · exact free_executors_exclusivity_amended.2
      { groups := [(none, []), (some 1, [0])],
        binds := [(0, ⟨none, none, some 1⟩)],
        jobExecs := [(1, [0])],
        stageExecs := [] }
      _ 1 [] (by decide)
      (by intro x
          show List.countP (fun p => decide (x ∈ p.2))
            [((none : Option Nat), ([] : List Nat)), (some 1, [0])] ≤ 1
          by_cases hx : x = 0 <;> simp [List.countP_cons, hx])
      (by decide) 0

/-! ## `Job.update_frontier_stages` (env.py lines 302–308)

`frontier_stages` is a `utils.OrderedSet` whose members are `Stage`
*objects*; the membership test on line 305 is `child.idx not in
self.frontier_stages`, which asks whether the *integer* `child.idx` is a
member.  To keep this type confusion observable, set members are embedded as
a tagged union `PyVal` of Python ints and `Stage` objects. -/

inductive PyVal where
  | int : Nat → PyVal
  | stage : Nat → PyVal
  deriving DecidableEq, Repr

/-- `utils.OrderedSet.add` for `PyVal` sets. -/
def osAddVal (l : List PyVal) (v : PyVal) : List PyVal :=
  if v ∈ l then l else l ++ [v]

/-- What `Job.update_frontier_stages` needs to know about a child stage:
its `idx` and the data `is_runnable` (env.py lines 122–131) reads. -/
structure ChildStage where
  idx : Nat
  no_more_task : Bool
  all_tasks_done : Bool
  parents_all_tasks_done : List Bool
  deriving DecidableEq, Repr

/-- `Stage.is_runnable` (env.py lines 122–131). -/
def ChildStage.is_runnable (c : ChildStage) : Bool :=
  !c.no_more_task && !c.all_tasks_done && c.parents_all_tasks_done.all id

/-- `Job.update_frontier_stages` (env.py lines 302–308), iterating over
`stage.child_stages` and returning the updated frontier set together with
`is_changed`. -/
def update_frontier_stages (frontier : List PyVal) (children : List ChildStage) :
    List PyVal × Bool :=
  children.foldl
    (fun acc child =>
      if child.is_runnable ∧ PyVal.int child.idx ∉ acc.1 then
        (osAddVal acc.1 (PyVal.stage child.idx), true)
      else acc)
    (frontier, false)

/-- **C4** (code bug).  With a frontier already containing the (runnable)
child stage `1`, `update_frontier_stages` leaves the frontier set unchanged
yet returns `true`: the membership test `child.idx not in
self.frontier_stages` compares the integer `1` against `Stage` objects, so
it never fires, and `is_changed` is set although nothing was added — the
claim that the boolean reports an actual frontier change is false on the
code. -/
theorem update_frontier_reports_false_change :
    update_frontier_stages [PyVal.stage 1]
        [{ idx := 1, no_more_task := false, all_tasks_done := false,
           parents_all_tasks_done := [] }] =
      ([PyVal.stage 1], true) ∧
    (PyVal.int 1 ∈ [PyVal.stage 1]) = False := by
  constructor
  · decide
  · simp

/-! ## `Stage.sample_executor_key` and `Stage.schedule`
(env.py lines 143–235; duplicate implementation spark_env/stage.py
lines 110–203)

The per-stage duration record and the duration sampling of
`Stage.schedule`.  `executorTask` stands for `executor.task`: `none` when
the executor is idle, otherwise the pair of the ids of
`executor.task.stage` and `executor.task.stage.job`.  `grand` is the
*ambient global* NumPy generator (`np.random.randint`), `eprand` a draw of
the per-episode generator `self.np_random`. -/

structure TaskDuration where
  fresh_durations : List (Nat × List ℚ)
  first_wave : List (Nat × List ℚ)
  rest_wave : List (Nat × List ℚ)
  deriving DecidableEq, Repr

/-- The resolved key before the `first_wave` fallback (env.py lines
149–157): `eprand` models `self.np_random.randint(1, r - l + 1)`, a uniform
draw from `{1, ..., r - l}` (not drawn at all when `l = r`). -/
def resolvedKey (l r num_executors eprand : Nat) : Nat :=
  if l = r then l
  else if eprand ≤ num_executors - l then l else r

/-- `Stage.sample_executor_key` (env.py lines 143–168): map the true
executor count through `executor2interval` (`KeyError` when absent), break
interior intervals with one per-episode draw, and fall back to the largest
recorded `first_wave` key (computed by the `largest_key` loop, lines
162–166) when the resolved key has no `first_wave` entry. -/
def sample_executor_key (e2i : Nat → Option (Nat × Nat))
    (first_wave : List (Nat × List ℚ)) (num_executors eprand : Nat) :
    Option Nat :=
  match e2i num_executors with
  | none => none
  | some (l, r) =>
    let executor_key := resolvedKey l r num_executors eprand
    if (alookup first_wave executor_key).isSome then some executor_key
    else some (first_wave.foldl (fun acc p => if p.1 > acc then p.1 else acc) 0)

/-- The fresh branch of the duration sampling (env.py lines 187–198):
draw from `fresh_durations[key]`; if that bucket is empty, draw from
`first_wave[key]` and add the configured warm-up delay.  All draws use the
ambient `np.random` generator. -/
def freshBranch (td : TaskDuration) (warmup : ℚ) (executor_key : Nat)
    (grand : Nat → Nat) : Except String ℚ :=
  match alookup td.fresh_durations executor_key with
  | none => .error "KeyError"
  | some wd =>
    if 0 < wd.length then .ok (wd.getD (grand wd.length) 0)
    else
      match alookup td.first_wave executor_key with
      | none => .error "KeyError"
      | some fwv =>
        if 0 < fwv.length then .ok (fwv.getD (grand fwv.length) 0 + warmup)
        else .error "ValueError"

/-- The first-wave branch of the duration sampling (env.py lines 207–218):
draw from `first_wave[key]`; if empty, draw from `fresh_durations[key]`. -/
def firstWaveBranch (td : TaskDuration) (executor_key : Nat)
    (grand : Nat → Nat) : Except String ℚ :=
  match alookup td.first_wave executor_key with
  | none => .error "KeyError"
  | some fwv =>
    if 0 < fwv.length then .ok (fwv.getD (grand fwv.length) 0)
    else
      match alookup td.fresh_durations executor_key with
      | none => .error "KeyError"
      | some wd =>
        if 0 < wd.length then .ok (wd.getD (grand wd.length) 0)
        else .error "ValueError"

/-- The duration computation of `Stage.schedule` (env.py lines 187–218):
fresh when `executor.task is None or executor.task.stage.job != task.stage.job`;
rest-wave when the executor's bound task's stage is this stage and
`rest_wave[key]` is non-empty (`KeyError` when the key is absent there);
first-wave otherwise.  Every draw reads the ambient `np.random` generator
`grand`, not the per-episode generator. -/
def sampleDuration (td : TaskDuration) (warmup : ℚ)
    (executorTask : Option (Nat × Nat)) (selfStage selfJob : Nat)
    (executor_key : Nat) (grand : Nat → Nat) : Except String ℚ :=
  match executorTask with
  | none => freshBranch td warmup executor_key grand
  | some (st, j) =>
    if j ≠ selfJob then freshBranch td warmup executor_key grand
    else if st = selfStage then
      match alookup td.rest_wave executor_key with
      | none => .error "KeyError"
      | some rwv =>
        if 0 < rwv.length then .ok (rwv.getD (grand rwv.length) 0)
        else firstWaveBranch td executor_key grand
    else firstWaveBranch td executor_key grand

/-- The state `Stage.schedule` reads and writes: the stage's own fields,
`self.job.executors` (for the executor-count assert), and
`self.job.frontier_stages`.  `executor.detach_stage()` also removes the
executor from its *previous* stage's executor set; that set belongs to
another stage's state and is modelled only for the case where the previous
stage is this stage (`executorStage = some selfIdx`). -/
structure StageState where
  selfIdx : Nat
  selfJob : Nat
  tasks : List Task
  num_tasks : Nat
  next_task_idx : Nat
  no_more_task : Bool
  task_duration : TaskDuration
  executors : List Nat
  job_executors : List Nat
  frontier : List PyVal
  cur_time : ℚ
  deriving DecidableEq, Repr

/-- `utils.OrderedSet.add` for executor-id sets (re-exported name). -/
def osAddNat (l : List Nat) (e : Nat) : List Nat := osAdd l e

/-- The shared body of `Stage.schedule` up to the frontier update
(env.py lines 180–230 = spark_env/stage.py lines 152–198): asserts, key
resolution, duration sampling, `executor.detach_stage()`,
`task.schedule(...)`, executor-set insertion, and the task-pointer /
`no_more_task` updates. -/
def scheduleCore (s : StageState) (e2i : Nat → Option (Nat × Nat))
    (executorIdx : Nat) (executorTask : Option (Nat × Nat))
    (executorStage : Option Nat) (warmup : ℚ) (eprand : Nat)
    (grand : Nat → Nat) : Except String (StageState × Task) := do
  if h : s.next_task_idx < s.num_tasks then
    match htask : s.tasks.get? s.next_task_idx with
    | none => .error "IndexError"
    | some task =>
      if s.job_executors.length > 0 then
        match sample_executor_key e2i s.task_duration.first_wave
            s.job_executors.length eprand with
        | none => .error "KeyError"
        | some executor_key =>
          match sampleDuration s.task_duration warmup executorTask s.selfIdx
              s.selfJob executor_key grand with
          | .error e => .error e
          | .ok duration =>
            -- executor.detach_stage(): remove from the previous stage's set
            let execs0 := if executorStage = some s.selfIdx ∧ executorIdx ∈ s.executors
              then s.executors.erase executorIdx else s.executors
            match task.schedule s.cur_time duration executorIdx with
            | .error e => .error e
            | .ok task2 =>
              let next2 := s.next_task_idx + 1
              .ok ({ s with
                       tasks := s.tasks.set s.next_task_idx task2,
                       executors := osAddNat execs0 executorIdx,
                       next_task_idx := next2,
                       no_more_task := decide (next2 ≥ s.num_tasks) }, task2)
      else .error "AssertionError"
  else .error "AssertionError"

/-- `Stage.schedule` as implemented in env.py (lines 170–235).  When the
last task was just scheduled and the stage is a member of the job's
frontier set, line 233 reads the non-existent attribute
`self.job.frontier_staes` (a misspelling of `frontier_stages`) and raises
`AttributeError`. -/
def envSchedule (s : StageState) (e2i : Nat → Option (Nat × Nat))
    (executorIdx : Nat) (executorTask : Option (Nat × Nat))
    (executorStage : Option Nat) (warmup : ℚ) (eprand : Nat)
    (grand : Nat → Nat) : Except String (StageState × Task) :=
  match scheduleCore s e2i executorIdx executorTask executorStage warmup eprand grand with
  | .error e => .error e
  | .ok (s2, task2) =>
    if s2.no_more_task then
      if PyVal.stage s2.selfIdx ∈ s2.frontier then
        .error "AttributeError"
      else .ok (s2, task2)
    else .ok (s2, task2)

/-- `Stage.schedule` as implemented in spark_env/stage.py (lines 142–203):
identical to env.py's except that the frontier removal on line 201 spells
`frontier_stages` correctly and succeeds. -/
def sparkSchedule (s : StageState) (e2i : Nat → Option (Nat × Nat))
    (executorIdx : Nat) (executorTask : Option (Nat × Nat))
    (executorStage : Option Nat) (warmup : ℚ) (eprand : Nat)
    (grand : Nat → Nat) : Except String (StageState × Task) :=
  match scheduleCore s e2i executorIdx executorTask executorStage warmup eprand grand with
  | .error e => .error e
  | .ok (s2, task2) =>
    if s2.no_more_task then
      if PyVal.stage s2.selfIdx ∈ s2.frontier then
        .ok ({ s2 with frontier := s2.frontier.erase (PyVal.stage s2.selfIdx) }, task2)
      else .ok (s2, task2)
    else .ok (s2, task2)

/-- A slice of the executor-interval map with the single data point 2:
`executor2interval[1] = (2, 2)`. -/
def testE2I : Nat → Option (Nat × Nat) :=
  fun n => if n = 1 then some (2, 2) else none

/-- Concrete stage state about to schedule its last task while being a
member of its job's frontier set. -/
def C5State : StageState :=
  { selfIdx := 3, selfJob := 7, tasks := [Task.init 0 5], num_tasks := 1,
    next_task_idx := 0, no_more_task := false,
    task_duration := { fresh_durations := [(2, [10])], first_wave := [(2, [4])],
                       rest_wave := [(2, [])] },
    executors := [], job_executors := [0], frontier := [PyVal.stage 3],
    cur_time := 0 }

/-- **C5** (code bug).  Scheduling the last task of a stage that is a member
of its job's frontier set: env.py's `Stage.schedule` raises
`AttributeError` at line 233 (`self.job.frontier_staes`, a misspelling of
`frontier_stages`) instead of removing the stage and returning the task,
while the duplicate implementation spark_env/stage.py performs exactly what
the claim states (sets `no_more_task`, removes the stage from the frontier,
returns the scheduled task). -/
theorem env_schedule_last_task_raises :
    envSchedule C5State testE2I 0 none none 1 1 (fun _ => 0) =
      .error "AttributeError" ∧
    sparkSchedule C5State testE2I 0 none none 1 1 (fun _ => 0) =
      .ok ({ C5State with
               tasks := [{ idx := 0, duration := 10, start_time := some 0,
                           finish_time := some (0 + 10), executor := some 0 }],
               executors := [0], next_task_idx := 1, no_more_task := true,
               frontier := [] },
           { idx := 0, duration := 10, start_time := some 0,
             finish_time := some (0 + 10), executor := some 0 }) := by
  constructor
  · rfl
  · rfl

/-- Concrete stage state with two tasks and a two-element
`fresh_durations` bucket. -/
def C1State : StageState :=
  { selfIdx := 3, selfJob := 7, tasks := [Task.init 0 5, Task.init 1 5],
    num_tasks := 2, next_task_idx := 0, no_more_task := false,
    task_duration := { fresh_durations := [(2, [10, 20])],
                       first_wave := [(2, [4])], rest_wave := [(2, [])] },
    executors := [], job_executors := [0], frontier := [],
    cur_time := 0 }

/-- **C1** (code bug).  Two runs of `Stage.schedule` with the *same*
per-episode draw (`eprand = 1`) but different ambient `np.random` states
produce different task durations and finish times: the duration draws in
env.py lines 193/198/205/213/218 (and identically in spark_env/stage.py)
call `np.random.randint`, the ambient global generator, not the
per-episode generator `self.np_random` — so replaying a seed does not
reproduce outcomes, contradicting the claim that every stochastic draw in
`Stage.schedule` reads only the per-episode source. -/
theorem schedule_duration_reads_global_rng :
    envSchedule C1State testE2I 0 none none 1 1 (fun _ => 0) ≠
      envSchedule C1State testE2I 0 none none 1 1 (fun _ => 1) ∧
    sparkSchedule C1State testE2I 0 none none 1 1 (fun _ => 0) ≠
      sparkSchedule C1State testE2I 0 none none 1 1 (fun _ => 1) := by
  constructor
  · intro h
    have h2 := congrArg
      (fun r => match r with
        | Except.ok (_, t) => t.duration
        | Except.error _ => (0 : ℚ)) h
    revert h2
    decide
  · intro h
    have h2 := congrArg
      (fun r => match r with
        | Except.ok (_, t) => t.duration
        | Except.error _ => (0 : ℚ)) h
    revert h2
    decide

/-- The three duration cases of spec §4.2. -/
inductive DurationCase where
  | fresh
  | restWave
  | firstWave
  deriving DecidableEq, Repr

/-- The classification exactly as claim C6 words it, checked in this order:
(1) fresh — the executor's bound task is absent or belongs to a different
job; (2) rest-wave — the bound task's stage is this stage and the rest-wave
bucket for the resolved key is non-empty; (3) first-wave otherwise. -/
def claimClassify (executorTask : Option (Nat × Nat)) (selfStage selfJob : Nat)
    (restBucket : List ℚ) : DurationCase :=
  match executorTask with
  | none => .fresh
  | some (st, j) =>
    if j ≠ selfJob then .fresh
    else if st = selfStage ∧ restBucket ≠ [] then .restWave
    else .firstWave

/-- The per-case draw exactly as claim C6 words it: fresh draws from
`fresh_durations`, or from `first_wave` plus the warm-up delay when that
bucket is empty; rest-wave draws from the rest-wave bucket; first-wave
draws from `first_wave`, or from `fresh_durations` when empty. -/
def claimDuration (fd fwv rwv : List ℚ) (warmup : ℚ) (c : DurationCase)
    (grand : Nat → Nat) : Except String ℚ :=
  match c with
  | .fresh =>
      if fd ≠ [] then .ok (fd.getD (grand fd.length) 0)
      else if fwv ≠ [] then .ok (fwv.getD (grand fwv.length) 0 + warmup)
      else .error "ValueError"
  | .restWave => .ok (rwv.getD (grand rwv.length) 0)
  | .firstWave =>
      if fwv ≠ [] then .ok (fwv.getD (grand fwv.length) 0)
      else if fd ≠ [] then .ok (fd.getD (grand fd.length) 0)
      else .error "ValueError"

/-- **C6.**  When the resolved executor-count key has entries in all three
duration tables, the duration computation of `Stage.schedule` selects its
bucket and fallback exactly as the claim's three ordered cases describe. -/
theorem sample_duration_classification
    (td : TaskDuration) (warmup : ℚ) (executorTask : Option (Nat × Nat))
    (selfStage selfJob : Nat) (key : Nat) (grand : Nat → Nat)
    {fd fwv rwv : List ℚ}
    (hfd : alookup td.fresh_durations key = some fd)
    (hfw : alookup td.first_wave key = some fwv)
    (hrw : alookup td.rest_wave key = some rwv) :
    sampleDuration td warmup executorTask selfStage selfJob key grand =
      claimDuration fd fwv rwv warmup
        (claimClassify executorTask selfStage selfJob rwv) grand := by
  have hfb : freshBranch td warmup key grand =
      (if fd ≠ [] then .ok (fd.getD (grand fd.length) 0)
       else if fwv ≠ [] then .ok (fwv.getD (grand fwv.length) 0 + warmup)
       else .error "ValueError") := by
    simp only [freshBranch, hfd, hfw, List.length_pos]
  have hwb : firstWaveBranch td key grand =
      (if fwv ≠ [] then .ok (fwv.getD (grand fwv.length) 0)
       else if fd ≠ [] then .ok (fd.getD (grand fd.length) 0)
       else .error "ValueError") := by
    simp only [firstWaveBranch, hfd, hfw, List.length_pos]
  cases executorTask with
  | none =>
      simp only [sampleDuration, claimClassify, claimDuration, hfb]
  | some p =>
      obtain ⟨st, j⟩ := p
      by_cases hj : j ≠ selfJob
      · simp only [sampleDuration, claimClassify, if_pos hj, claimDuration, hfb]
      · by_cases hst : st = selfStage
        · by_cases hr : rwv = []
          · have hcl : claimClassify (some (st, j)) selfStage selfJob rwv =
                .firstWave := by
              simp [claimClassify, hj, hr]
            rw [hcl]
            simp only [sampleDuration, if_neg hj, if_pos hst, hrw, hr]
            simp [claimDuration, hwb]
          · have hcl : claimClassify (some (st, j)) selfStage selfJob rwv =
                .restWave := by
              simp [claimClassify, hj, hst, hr]
            rw [hcl]
            simp only [sampleDuration, if_neg hj, if_pos hst, hrw]
            rw [if_pos (List.length_pos.mpr hr)]
            rfl
        · have hcl : claimClassify (some (st, j)) selfStage selfJob rwv =
              .firstWave := by
            simp [claimClassify, hj, hst]
          rw [hcl]
          simp only [sampleDuration, if_neg hj, if_neg hst]
          simp [claimDuration, hwb]

/-- Witness for `sample_duration_classification` at a concrete input: an
executor whose bound task belongs to this very stage, with a non-empty
rest-wave bucket, draws from the rest-wave bucket. -/
theorem sample_duration_classification_witness :
    sampleDuration
        { fresh_durations := [(2, [10])], first_wave := [(2, [4])],
          rest_wave := [(2, [7, 9])] } 3 (some (3, 7)) 3 7 2 (fun _ => 1) =
      claimDuration [10] [4] [7, 9] 3
        (claimClassify (some (3, 7)) 3 7 [7, 9]) (fun _ => 1) :=
  sample_duration_classification
    { fresh_durations := [(2, [10])], first_wave := [(2, [4])],
      rest_wave := [(2, [7, 9])] } 3 (some (3, 7)) 3 7 2 (fun _ => 1)
    rfl rfl rfl

/-! ## `get_executor_interval_map` (env.py lines 616–663)

The executor-count-to-interval table, built from the configuration values
`args.executor_data_point` (`dps`, an increasing list of recorded executor
counts) and `args.exec_cap` (`cap`).  The Python dict is modelled as a
function `Nat → Option (Nat × Nat)`; counts never written map to `none`
(`KeyError` on access). -/

/-- Python `m[k] = v` for the function-backed dict. -/
def updR (m : Nat → Option (Nat × Nat)) (k : Nat) (v : Nat × Nat) :
    Nat → Option (Nat × Nat) :=
  fun x => if x = k then some v else m x

/-- Python `for e in es: m[e] = v`. -/
def writeRange (m : Nat → Option (Nat × Nat)) (es : List Nat) (v : Nat × Nat) :
    Nat → Option (Nat × Nat) :=
  es.foldl (fun acc e => updR acc e v) m

/-- One iteration of the center loop (env.py lines 649–655) at index `i`:
write `(dps[i], dps[i+1])` for the counts strictly between the two data
points, then `(dps[i+1], dps[i+1])` at the data point itself. -/
def centerStep (dps : List Nat) (m : Nat → Option (Nat × Nat)) (i : Nat) :
    Nat → Option (Nat × Nat) :=
  let a := dps.getD i 0
  let b := dps.getD (i + 1) 0
  updR (writeRange m (List.range' (a + 1) (b - (a + 1))) (a, b)) b (b, b)

/-- `get_executor_interval_map` (env.py lines 616–663).  Python's
`executor_data_point[0]` and `executor_data_point[-1]` are modelled as
`dps.getD 0 0` and `dps.getD (dps.length - 1) 0` (the configuration list is
non-empty).  First loop: counts `0 .. dps[0]` map to `(dps[0], dps[0])`;
center loop: `centerStep` for each adjacent pair; residual loop (when
`exec_cap` exceeds the largest point): counts `dps[-1]+1 .. cap` map to
`(dps[-1], dps[-1])`. -/
def get_executor_interval_map (dps : List Nat) (cap : Nat) :
    Nat → Option (Nat × Nat) :=
  if cap > dps.getD (dps.length - 1) 0 then
    writeRange
      ((List.range (dps.length - 1)).foldl (centerStep dps)
        (writeRange (fun _ => none) (List.range (dps.getD 0 0 + 1))
          (dps.getD 0 0, dps.getD 0 0)))
      (List.range' (dps.getD (dps.length - 1) 0 + 1)
        (cap - dps.getD (dps.length - 1) 0))
      (dps.getD (dps.length - 1) 0, dps.getD (dps.length - 1) 0)
  else
    (List.range (dps.length - 1)).foldl (centerStep dps)
      (writeRange (fun _ => none) (List.range (dps.getD 0 0 + 1))
        (dps.getD 0 0, dps.getD 0 0))

theorem writeRange_not_mem {es : List Nat} :
    ∀ {m : Nat → Option (Nat × Nat)} {v : Nat × Nat} {k : Nat}, k ∉ es →
      writeRange m es v k = m k := by
  induction es with
  | nil => intro m v k _; rfl
  | cons e rest ih =>
      intro m v k hk
      have hke : k ≠ e := fun hh => hk (hh ▸ List.mem_cons_self e rest)
      have hkr : k ∉ rest := fun hh => hk (List.mem_cons_of_mem _ hh)
      show writeRange (updR m e v) rest v k = m k
      rw [ih hkr]
      simp [updR, hke]

theorem writeRange_mem {es : List Nat} :
    ∀ {m : Nat → Option (Nat × Nat)} {v : Nat × Nat} {k : Nat}, k ∈ es →
      writeRange m es v k = some v := by
  induction es with
  | nil => intro m v k hk; cases hk
  | cons e rest ih =>
      intro m v k hk
      show writeRange (updR m e v) rest v k = some v
      by_cases hkr : k ∈ rest
      · exact ih hkr
      · have hke : k = e := by
          rcases List.mem_cons.mp hk with h | h
          · exact h
          · exact absurd h hkr
        rw [writeRange_not_mem hkr]
        simp [updR, hke]

/-- Adjacent strict monotonicity of the recorded data points (the
configuration supplies them in increasing order). -/
def AdjMono (dps : List Nat) : Prop :=
  ∀ i, i + 1 < dps.length → dps.getD i 0 < dps.getD (i + 1) 0

theorem AdjMono.getD_le {dps : List Nat} (h : AdjMono dps) :
    ∀ (d i : Nat), i + d < dps.length → dps.getD i 0 ≤ dps.getD (i + d) 0 := by
  intro d
  induction d with
  | zero => intro i _; simp
  | succ d ih =>
      intro i hlen
      have h1 := ih i (by omega)
      have h2 : dps.getD (i + d) 0 < dps.getD (i + d + 1) 0 := h (i + d) (by omega)
      have he : i + (d + 1) = (i + d) + 1 := by omega
      rw [he]
      omega

theorem AdjMono.getD_mono {dps : List Nat} (h : AdjMono dps) {i j : Nat}
    (hij : i ≤ j) (hj : j < dps.length) : dps.getD i 0 ≤ dps.getD j 0 := by
  have h2 := h.getD_le (j - i) i (by omega)
  have he : i + (j - i) = j := by omega
  rw [he] at h2
  exact h2

theorem centerStep_le {dps : List Nat} {m : Nat → Option (Nat × Nat)} {i k : Nat}
    (hk : k ≤ dps.getD i 0) (hab : dps.getD i 0 < dps.getD (i + 1) 0) :
    centerStep dps m i k = m k := by
  unfold centerStep
  have hkb : k ≠ dps.getD (i + 1) 0 := by omega
  have hknot : k ∉ List.range' (dps.getD i 0 + 1)
      (dps.getD (i + 1) 0 - (dps.getD i 0 + 1)) := by
    intro hmem
    have := List.mem_range'_1.mp hmem
    omega
  simp only [updR, if_neg hkb]
  exact writeRange_not_mem hknot

/-- The center loop never touches counts at or below the data point where it
starts. -/
theorem centerFold_le {dps : List Nat} (hmono : AdjMono dps) :
    ∀ (t s : Nat) (m : Nat → Option (Nat × Nat)) (k : Nat),
      s + t ≤ dps.length - 1 → k ≤ dps.getD s 0 →
      (List.range' s t).foldl (centerStep dps) m k = m k := by
  intro t
  induction t with
  | zero => intro s m k _ _; rfl
  | succ t ih =>
      intro s m k hst hk
      rw [List.range'_succ s t 1]
      show (List.range' (s + 1) t).foldl (centerStep dps) (centerStep dps m s) k =
        m k
      have hs1 : s + 1 < dps.length := by omega
      have hab : dps.getD s 0 < dps.getD (s + 1) 0 := hmono s hs1
      rw [ih (s + 1) (centerStep dps m s) k (by omega) (by omega)]
      exact centerStep_le hk hab

/-- The value the center loop writes for a count strictly above `dps[i]` and
at most `dps[i+1]`. -/
theorem centerFold_mid {dps : List Nat} (hmono : AdjMono dps) :
    ∀ (t s : Nat) (m : Nat → Option (Nat × Nat)) (k i : Nat),
      s + t = dps.length - 1 → s ≤ i → i < s + t →
      dps.getD i 0 < k → k ≤ dps.getD (i + 1) 0 →
      (List.range' s t).foldl (centerStep dps) m k =
        (if k = dps.getD (i + 1) 0 then some (dps.getD (i + 1) 0, dps.getD (i + 1) 0)
         else some (dps.getD i 0, dps.getD (i + 1) 0)) := by
  intro t
  induction t with
  | zero => intro s m k i _ hsi hit _ _; omega
  | succ t ih =>
      intro s m k i hst hsi hit hlo hhi
      rw [List.range'_succ s t 1]
      show (List.range' (s + 1) t).foldl (centerStep dps) (centerStep dps m s) k = _
      rcases Nat.eq_or_lt_of_le hsi with hi | hi
      · -- i = s : this very step writes the value, later steps do not touch k
        subst hi
        have hs1 : s + 1 < dps.length := by omega
        have hab : dps.getD s 0 < dps.getD (s + 1) 0 := hmono s hs1
        rw [centerFold_le hmono t (s + 1) _ k (by omega) hhi]
        unfold centerStep
        by_cases hkb : k = dps.getD (s + 1) 0
        · simp only [updR, if_pos hkb]
        · have hmem : k ∈ List.range' (dps.getD s 0 + 1)
              (dps.getD (s + 1) 0 - (dps.getD s 0 + 1)) := by
            apply List.mem_range'_1.mpr
            omega
          simp only [updR, if_neg hkb]
          rw [writeRange_mem hmem]
      · -- i > s : the value is written by a later step, whatever this one did
        rw [ih (s + 1) (centerStep dps m s) k i (by omega) hi (by omega) hlo hhi]

/-- Counts at or below the smallest recorded data point map to that point. -/
theorem interval_map_low {dps : List Nat} {cap k : Nat} (hne : dps ≠ [])
    (hmono : AdjMono dps) (hk : k ≤ dps.getD 0 0) :
    get_executor_interval_map dps cap k = some (dps.getD 0 0, dps.getD 0 0) := by
  have hlen : 0 < dps.length := List.length_pos.mpr hne
  have hd0dl : dps.getD 0 0 ≤ dps.getD (dps.length - 1) 0 :=
    hmono.getD_mono (by omega) (by omega)
  have hm1 : writeRange (fun _ => none) (List.range (dps.getD 0 0 + 1))
      (dps.getD 0 0, dps.getD 0 0) k = some (dps.getD 0 0, dps.getD 0 0) :=
    writeRange_mem (List.mem_range.mpr (by omega))
  have hm2 : (List.range (dps.length - 1)).foldl (centerStep dps)
      (writeRange (fun _ => none) (List.range (dps.getD 0 0 + 1))
        (dps.getD 0 0, dps.getD 0 0)) k =
      some (dps.getD 0 0, dps.getD 0 0) := by
    rw [List.range_eq_range' (dps.length - 1)]
    rw [centerFold_le hmono (dps.length - 1) 0 _ k (by omega) hk]
    exact hm1
  unfold get_executor_interval_map
  by_cases hcap : cap > dps.getD (dps.length - 1) 0
  · rw [if_pos hcap]
    rw [writeRange_not_mem (by
      intro hmem
      have := List.mem_range'_1.mp hmem
      omega)]
    exact hm2
  · rw [if_neg hcap]
    exact hm2

/-- Counts strictly between two adjacent recorded data points map to the
pair of those points. -/
theorem interval_map_mid {dps : List Nat} {cap k i : Nat} (hmono : AdjMono dps)
    (hi : i + 1 < dps.length) (hlo : dps.getD i 0 < k)
    (hhi : k < dps.getD (i + 1) 0) :
    get_executor_interval_map dps cap k =
      some (dps.getD i 0, dps.getD (i + 1) 0) := by
  have hkdl : k < dps.getD (dps.length - 1) 0 :=
    lt_of_lt_of_le hhi (hmono.getD_mono (by omega) (by omega))
  have hm2 : (List.range (dps.length - 1)).foldl (centerStep dps)
      (writeRange (fun _ => none) (List.range (dps.getD 0 0 + 1))
        (dps.getD 0 0, dps.getD 0 0)) k =
      some (dps.getD i 0, dps.getD (i + 1) 0) := by
    rw [List.range_eq_range' (dps.length - 1)]
    rw [centerFold_mid hmono (dps.length - 1) 0 _ k i (by omega) (by omega)
      (by omega) hlo (le_of_lt hhi)]
    rw [if_neg (by omega)]
  unfold get_executor_interval_map
  by_cases hcap : cap > dps.getD (dps.length - 1) 0
  · rw [if_pos hcap]
    rw [writeRange_not_mem (by
      intro hmem
      have := List.mem_range'_1.mp hmem
      omega)]
    exact hm2
  · rw [if_neg hcap]
    exact hm2

/-- Counts at or above the largest recorded data point (up to `exec_cap`)
map to that point. -/
theorem interval_map_high {dps : List Nat} {cap k : Nat} (hne : dps ≠ [])
    (hmono : AdjMono dps) (hk : dps.getD (dps.length - 1) 0 ≤ k)
    (hcapk : k ≤ cap) :
    get_executor_interval_map dps cap k =
      some (dps.getD (dps.length - 1) 0, dps.getD (dps.length - 1) 0) := by
  have hlen : 0 < dps.length := List.length_pos.mpr hne
  rcases Nat.eq_or_lt_of_le hk with hkeq | hklt
  · -- k is exactly the largest data point
    have hm2 : (List.range (dps.length - 1)).foldl (centerStep dps)
        (writeRange (fun _ => none) (List.range (dps.getD 0 0 + 1))
          (dps.getD 0 0, dps.getD 0 0)) k =
        some (dps.getD (dps.length - 1) 0, dps.getD (dps.length - 1) 0) := by
      rw [List.range_eq_range' (dps.length - 1)]
      rcases Nat.eq_or_lt_of_le (Nat.one_le_iff_ne_zero.mpr
        (Nat.pos_iff_ne_zero.mp hlen)) with hlen1 | hlen2
      · -- a single data point: the center loop is empty
        have h0 : dps.length - 1 = 0 := by omega
        rw [h0]
        have hd0 : dps.getD (dps.length - 1) 0 = dps.getD 0 0 := by rw [h0]
        rw [hd0] at hkeq
        exact writeRange_mem (List.mem_range.mpr (by omega))
      · -- at least two data points: the last center step writes (dl, dl)
        have hi2 : (dps.length - 2) + 1 < dps.length := by omega
        have hieq : (dps.length - 2) + 1 = dps.length - 1 := by omega
        have hlo : dps.getD (dps.length - 2) 0 < k := by
          rw [← hkeq, ← hieq]
          exact hmono (dps.length - 2) (by omega)
        rw [centerFold_mid hmono (dps.length - 1) 0 _ k (dps.length - 2)
          (by omega) (by omega) (by omega) hlo (by rw [← hieq] at hkeq; omega)]
        rw [hieq, if_pos hkeq.symm]
    unfold get_executor_interval_map
    by_cases hcap : cap > dps.getD (dps.length - 1) 0
    · rw [if_pos hcap]
      rw [writeRange_not_mem (by
        intro hmem
        have := List.mem_range'_1.mp hmem
        omega)]
      exact hm2
    · rw [if_neg hcap]
      exact hm2
  · -- k is strictly above the largest data point: the residual loop wrote it
    have hcap : cap > dps.getD (dps.length - 1) 0 := by omega
    unfold get_executor_interval_map
    rw [if_pos hcap]
    exact writeRange_mem (List.mem_range'_1.mpr (by omega))

/-- The `largest_key` loop of `sample_executor_key` (env.py lines 162–166)
computes an upper bound of the keys that is the initial value or one of the
keys. -/
theorem largest_key_spec :
    ∀ (fw : List (Nat × List ℚ)) (a : Nat),
      (fw.foldl (fun acc p => if p.1 > acc then p.1 else acc) a = a ∨
        fw.foldl (fun acc p => if p.1 > acc then p.1 else acc) a ∈ fw.map Prod.fst) ∧
      a ≤ fw.foldl (fun acc p => if p.1 > acc then p.1 else acc) a ∧
      (∀ k ∈ fw.map Prod.fst,
        k ≤ fw.foldl (fun acc p => if p.1 > acc then p.1 else acc) a) := by
  intro fw
  induction fw with
  | nil => intro a; exact ⟨Or.inl rfl, le_refl _, by simp⟩
  | cons p t ih =>
      intro a
      simp only [List.foldl_cons, List.map_cons]
      obtain ⟨ih1, ih2, ih3⟩ := ih (if p.1 > a then p.1 else a)
      refine ⟨?_, ?_, ?_⟩
      · rcases ih1 with h | h
        · by_cases hpa : p.1 > a
          · right
            rw [h, if_pos hpa]
            exact List.mem_cons_self _ _
          · left
            rw [h, if_neg hpa]
        · right
          exact List.mem_cons_of_mem _ h
      · refine le_trans ?_ ih2
        split <;> omega
      · intro k hk
        rcases List.mem_cons.mp hk with hk | hk
        · subst hk
          refine le_trans ?_ ih2
          split <;> omega
        · exact ih3 k hk

/-- The number of per-episode draws, out of the uniform range
`{1, ..., span}` that `self.np_random.randint(1, span + 1)` returns, for
which `sample_executor_key` resolves the executor count `n` to `key`. -/
def keyDrawCount (dps : List Nat) (cap : Nat) (fw : List (Nat × List ℚ))
    (n key span : Nat) : Nat :=
  ((Finset.Icc 1 span).filter
    (fun r => sample_executor_key (get_executor_interval_map dps cap) fw n r =
      some key)).card

/-- The proximity-proportional snapping that claim C7 asserts for counts
strictly between two recorded points `(lo, hi)`: the nearer endpoint gets
the proportionally larger share of the uniform draws, i.e. `lo` is chosen in
`hi - n` of the `hi - lo` draws and `hi` in `n - lo` of them. -/
def proximityProportional (dps : List Nat) (cap : Nat)
    (fw : List (Nat × List ℚ)) (n lo hi : Nat) : Prop :=
  keyDrawCount dps cap fw n lo (hi - lo) = hi - n ∧
  keyDrawCount dps cap fw n hi (hi - lo) = n - lo

/-- **C7** (counterexample).  With recorded data points `[5, 10]`, capacity
`12`, and executor count `6` (nearest point: `5`), the code resolves to key
`5` in only `1` of the `5` equiprobable draws and to key `10` in `4` of
them — the `rand_data_point <= num_executors - left_executor` test on
env.py line 154 snaps to an endpoint with probability proportional to the
*distance* from it, so the proximity-proportional snapping the claim states
is false. -/
theorem sample_executor_key_not_proximity_proportional :
    ¬ proximityProportional [5, 10] 12 [(5, [1]), (10, [1])] 6 5 10 ∧
    keyDrawCount [5, 10] 12 [(5, [1]), (10, [1])] 6 5 (10 - 5) = 6 - 5 ∧
    keyDrawCount [5, 10] 12 [(5, [1]), (10, [1])] 6 10 (10 - 5) = 10 - 6 := by
  refine ⟨?_, by decide, by decide⟩
  unfold proximityProportional
  decide

/-- **C7** (amended).  `sample_executor_key` resolves the job's true
executor count `n` as follows: counts at or below the smallest recorded
point resolve to that point; counts strictly between two adjacent recorded
points `(lo, hi)` resolve to `lo` for the first `n - lo` of the `hi - lo`
equiprobable per-episode draws and to `hi` for the remaining `hi - n` — a
share proportional to the *distance* from the chosen endpoint, not its
proximity; counts at or above the largest recorded point (up to `exec_cap`)
resolve to it; and when the resolved key has no `first_wave` entry the
result is the largest key present in that table. -/
theorem sample_executor_key_resolution
    (dps : List Nat) (cap : Nat) (fw : List (Nat × List ℚ))
    (hne : dps ≠ []) (hmono : AdjMono dps) (n eprand : Nat) :
    (n ≤ dps.getD 0 0 → (alookup fw (dps.getD 0 0)).isSome = true →
      sample_executor_key (get_executor_interval_map dps cap) fw n eprand =
        some (dps.getD 0 0)) ∧
    (∀ i, i + 1 < dps.length → dps.getD i 0 < n → n < dps.getD (i + 1) 0 →
      (alookup fw (dps.getD i 0)).isSome = true →
      (alookup fw (dps.getD (i + 1) 0)).isSome = true →
      sample_executor_key (get_executor_interval_map dps cap) fw n eprand =
        some (if eprand ≤ n - dps.getD i 0 then dps.getD i 0
              else dps.getD (i + 1) 0)) ∧
    (∀ i, i + 1 < dps.length → dps.getD i 0 < n → n < dps.getD (i + 1) 0 →
      (alookup fw (dps.getD i 0)).isSome = true →
      (alookup fw (dps.getD (i + 1) 0)).isSome = true →
      keyDrawCount dps cap fw n (dps.getD i 0)
          (dps.getD (i + 1) 0 - dps.getD i 0) = n - dps.getD i 0 ∧
      keyDrawCount dps cap fw n (dps.getD (i + 1) 0)
          (dps.getD (i + 1) 0 - dps.getD i 0) = dps.getD (i + 1) 0 - n) ∧
    (dps.getD (dps.length - 1) 0 ≤ n → n ≤ cap →
      (alookup fw (dps.getD (dps.length - 1) 0)).isSome = true →
      sample_executor_key (get_executor_interval_map dps cap) fw n eprand =
        some (dps.getD (dps.length - 1) 0)) ∧
    (∀ l r : Nat, get_executor_interval_map dps cap n = some (l, r) →
      alookup fw (resolvedKey l r n eprand) = none → fw ≠ [] →
      ∃ M, sample_executor_key (get_executor_interval_map dps cap) fw n eprand =
          some M ∧ M ∈ fw.map Prod.fst ∧ ∀ k ∈ fw.map Prod.fst, k ≤ M) := by
  have h2 : ∀ (ep : Nat), ∀ i, i + 1 < dps.length → dps.getD i 0 < n →
      n < dps.getD (i + 1) 0 →
      (alookup fw (dps.getD i 0)).isSome = true →
      (alookup fw (dps.getD (i + 1) 0)).isSome = true →
      sample_executor_key (get_executor_interval_map dps cap) fw n ep =
        some (if ep ≤ n - dps.getD i 0 then dps.getD i 0
              else dps.getD (i + 1) 0) := by
    intro ep i hi hlo hhi hfwl hfwh
    have he2i : get_executor_interval_map dps cap n =
        some (dps.getD i 0, dps.getD (i + 1) 0) := interval_map_mid hmono hi hlo hhi
    have hab : dps.getD i 0 < dps.getD (i + 1) 0 := hmono i hi
    simp only [sample_executor_key, he2i]
    by_cases hr : ep ≤ n - dps.getD i 0
    · have hkey : resolvedKey (dps.getD i 0) (dps.getD (i + 1) 0) n ep =
          dps.getD i 0 := by
        unfold resolvedKey
        rw [if_neg (by omega), if_pos hr]
      rw [hkey, if_pos hfwl, if_pos hr]
    · have hkey : resolvedKey (dps.getD i 0) (dps.getD (i + 1) 0) n ep =
          dps.getD (i + 1) 0 := by
        unfold resolvedKey
        rw [if_neg (by omega), if_neg hr]
      rw [hkey, if_pos hfwh, if_neg hr]
  refine ⟨?_, h2 eprand, ?_, ?_, ?_⟩
  · -- at or below the smallest recorded point
    intro hn hfw
    have he2i : get_executor_interval_map dps cap n =
        some (dps.getD 0 0, dps.getD 0 0) := interval_map_low hne hmono hn
    simp only [sample_executor_key, he2i]
    have hkey : resolvedKey (dps.getD 0 0) (dps.getD 0 0) n eprand =
        dps.getD 0 0 := by
      unfold resolvedKey
      rw [if_pos rfl]
    rw [hkey, if_pos hfw]
  · -- draw counts on an interior interval
    intro i hi hlo hhi hfwl hfwh
    have hab : dps.getD i 0 < dps.getD (i + 1) 0 := hmono i hi
    constructor
    · unfold keyDrawCount
      have hfe : (Finset.Icc 1 (dps.getD (i + 1) 0 - dps.getD i 0)).filter
          (fun r => sample_executor_key (get_executor_interval_map dps cap) fw n r =
            some (dps.getD i 0)) =
          Finset.Icc 1 (n - dps.getD i 0) := by
        ext r
        simp only [Finset.mem_filter, Finset.mem_Icc]
        constructor
        · rintro ⟨⟨hr1, hr2⟩, hs⟩
          rw [h2 r i hi hlo hhi hfwl hfwh] at hs
          by_cases hr : r ≤ n - dps.getD i 0
          · exact ⟨hr1, hr⟩
          · rw [if_neg hr] at hs
            injection hs with hs
            omega
        · rintro ⟨hr1, hr2⟩
          refine ⟨⟨hr1, by omega⟩, ?_⟩
          rw [h2 r i hi hlo hhi hfwl hfwh, if_pos hr2]
      rw [hfe, Nat.card_Icc]
      omega
    · unfold keyDrawCount
      have hfe : (Finset.Icc 1 (dps.getD (i + 1) 0 - dps.getD i 0)).filter
          (fun r => sample_executor_key (get_executor_interval_map dps cap) fw n r =
            some (dps.getD (i + 1) 0)) =
          Finset.Icc (n - dps.getD i 0 + 1)
            (dps.getD (i + 1) 0 - dps.getD i 0) := by
        ext r
        simp only [Finset.mem_filter, Finset.mem_Icc]
        constructor
        · rintro ⟨⟨hr1, hr2⟩, hs⟩
          rw [h2 r i hi hlo hhi hfwl hfwh] at hs
          by_cases hr : r ≤ n - dps.getD i 0
          · rw [if_pos hr] at hs
            injection hs with hs
            omega
          · exact ⟨by omega, hr2⟩
        · rintro ⟨hr1, hr2⟩
          refine ⟨⟨by omega, hr2⟩, ?_⟩
          rw [h2 r i hi hlo hhi hfwl hfwh, if_neg (by omega)]
      rw [hfe, Nat.card_Icc]
      omega
  · -- at or above the largest recorded point
    intro hn hcap hfw
    have he2i : get_executor_interval_map dps cap n =
        some (dps.getD (dps.length - 1) 0, dps.getD (dps.length - 1) 0) :=
      interval_map_high hne hmono hn hcap
    simp only [sample_executor_key, he2i]
    have hkey : resolvedKey (dps.getD (dps.length - 1) 0)
        (dps.getD (dps.length - 1) 0) n eprand = dps.getD (dps.length - 1) 0 := by
      unfold resolvedKey
      rw [if_pos rfl]
    rw [hkey, if_pos hfw]
  · -- missing first_wave key: fall back to the largest recorded key
    intro l r he2i hnone hfwne
    simp only [sample_executor_key, he2i]
    rw [if_neg (by simp [hnone])]
    obtain ⟨hmem, hinit, hbound⟩ := largest_key_spec fw 0
    refine ⟨_, rfl, ?_, hbound⟩
    rcases hmem with h0 | hmem
    · obtain ⟨q, t, rfl⟩ : ∃ q t, fw = q :: t := by
        cases fw with
        | nil => exact absurd rfl hfwne
        | cons q t => exact ⟨q, t, rfl⟩
      have hq := hbound q.1 (by simp)
      have hq1 : q.1 = (q :: t).foldl
          (fun acc p => if p.1 > acc then p.1 else acc) 0 := by omega
      rw [← hq1]
      simp
    · exact hmem

/-- Witness for `sample_executor_key_resolution` with data points `[5, 10]`
and capacity `12`: count 3 snaps to 5; count 6 with interior draw 2 snaps
to 10; of the five interior draws for count 6, one resolves to key 5 and
four to key 10; count 11 snaps to 10; and with a `first_wave` table missing
key 10 the resolution falls back to the largest available key. -/
theorem sample_executor_key_resolution_witness :
    sample_executor_key (get_executor_interval_map [5, 10] 12)
        [(5, [1]), (10, [1])] 3 1 = some 5 ∧
    sample_executor_key (get_executor_interval_map [5, 10] 12)
        [(5, [1]), (10, [1])] 6 2 = some 10 ∧
    keyDrawCount [5, 10] 12 [(5, [1]), (10, [1])] 6 5 5 = 1 ∧
    keyDrawCount [5, 10] 12 [(5, [1]), (10, [1])] 6 10 5 = 4 ∧
    sample_executor_key (get_executor_interval_map [5, 10] 12)
        [(5, [1]), (10, [1])] 11 1 = some 10 ∧
    ∃ M, sample_executor_key (get_executor_interval_map [5, 10] 12)
        [(5, [1])] 11 1 = some M ∧ M ∈ [5] ∧ ∀ k ∈ [5], k ≤ M := by
  have hmono : AdjMono [5, 10] := by
    intro i hi
    have h0 : i = 0 := by
      simp at hi
      omega
    subst h0
    decide
  refine ⟨?_, ?_, ?_, ?_, ?_, ?_⟩
  · exact (sample_executor_key_resolution [5, 10] 12 [(5, [1]), (10, [1])]
      (by decide) hmono 3 1).1 (by decide) (by decide)
  · exact (sample_executor_key_resolution [5, 10] 12 [(5, [1]), (10, [1])]
      (by decide) hmono 6 2).2.1 0 (by decide) (by decide) (by decide)
      (by decide) (by decide)
  · exact ((sample_executor_key_resolution [5, 10] 12 [(5, [1]), (10, [1])]
      (by decide) hmono 6 1).2.2.1 0 (by decide) (by decide) (by decide)
      (by decide) (by decide)).1
  · exact ((sample_executor_key_resolution [5, 10] 12 [(5, [1]), (10, [1])]
      (by decide) hmono 6 1).2.2.1 0 (by decide) (by decide) (by decide)
      (by decide) (by decide)).2
  · exact (sample_executor_key_resolution [5, 10] 12 [(5, [1]), (10, [1])]
      (by decide) hmono 11 1).2.2.2.1 (by decide) (by decide) (by decide)
  · exact (sample_executor_key_resolution [5, 10] 12 [(5, [1])]
      (by decide) hmono 11 1).2.2.2.2 10 10 (by decide) (by decide) (by decide)

/-! ## `merge_jobs` (env.py lines 343–398)

Stages are global ids (Python object identities); a job carries its stage
ids in local-index order and its local adjacency matrix as a Boolean
function.  The mutable per-stage attributes `idx`, `parent_stages`,
`child_stages` live in a `StageGraph`.  The merged `adj_mat` is a function
on global row/column indices. -/

structure MJob where
  stages : List Nat
  adj : Nat → Nat → Bool

structure StageGraph where
  idx : Nat → Nat
  parents : Nat → List Nat
  children : Nat → List Nat

structure MergeState where
  stages : List Nat
  adj : Nat → Nat → Bool
  graph : StageGraph
  base : Nat
  sink_stages : List Nat

/-- `np.sum(job.adj_mat[:, i]) == 0` (env.py line 370). -/
def colSumZero (adjm : Nat → Nat → Bool) (nstages i : Nat) : Bool :=
  (List.range nstages).all (fun p => !(adjm p i))

/-- The synthetic matrix edges of env.py lines 368–373: for every source
column `i` of the current job (asserting its parent list is empty), set
`adj_mat[base - 1, base + i] = 1`.  Note the row is `base - 1` — the
*last-indexed* stage of the previous job — not the index of its unique sink
stage. -/
def addMatrixEdges (adjm : Nat → Nat → Bool) (g : StageGraph) (job : MJob)
    (base : Nat) : Except String (Nat → Nat → Bool) :=
  (List.range job.stages.length).foldlM
    (fun m i =>
      if colSumZero job.adj job.stages.length i then
        if g.parents (job.stages.getD i 0) = [] then
          .ok (fun x y => if x = base - 1 ∧ y = base + i then true else m x y)
        else .error "AssertionError"
      else .ok m)
    adjm

/-- One iteration of the `for job in jobs` loop of `merge_jobs`
(env.py lines 358–395). -/
def mergeStep (st : MergeState) (job : MJob) : Except String MergeState :=
  let n := job.stages.length
  -- `stage.idx += base`, `stages.append(stage)` (lines 361–363)
  let gidx := fun sid => if sid ∈ job.stages then st.graph.idx sid + st.base
    else st.graph.idx sid
  let stages2 := st.stages ++ job.stages
  -- block copy of the job's adjacency matrix onto the diagonal (line 364)
  let adj2 : Nat → Nat → Bool := fun x y =>
    if st.base ≤ x ∧ x < st.base + n ∧ st.base ≤ y ∧ y < st.base + n then
      job.adj (x - st.base) (y - st.base)
    else st.adj x y
  match (if st.base ≠ 0 then addMatrixEdges adj2 st.graph job st.base
         else .ok adj2) with
  | .error e => .error e
  | .ok adj3 =>
    -- source stages of this job (lines 376–379)
    let source_stages := job.stages.filter (fun s => st.graph.parents s = [])
    -- parent/child list updates against the previous job's sinks (lines 381–385)
    let children2 := fun sid => if sid ∈ st.sink_stages
      then st.graph.children sid ++ source_stages else st.graph.children sid
    let parents2 := fun sid => if sid ∈ source_stages
      then st.graph.parents sid ++ st.sink_stages else st.graph.parents sid
    -- this job's sink stages, asserted unique (lines 389–393)
    let new_sinks := job.stages.filter (fun s => children2 s = [])
    if new_sinks.length = 1 then
      .ok { stages := stages2, adj := adj3,
            graph := { idx := gidx, parents := parents2, children := children2 },
            base := st.base + n, sink_stages := new_sinks }
    else .error "AssertionError"

/-- `merge_jobs` (env.py lines 343–398), up to the final `Job` construction
(which only re-checks sizes and the DAG property). -/
def merge_jobs (jobs : List MJob) (g : StageGraph) : Except String MergeState :=
  jobs.foldlM mergeStep
    { stages := [], adj := fun _ _ => false, graph := g, base := 0,
      sink_stages := [] }

/-- Job J1 of the C9 counter-scenario: two stages, ids 0 and 1, with the
single edge s1 → s0 (adjacency entry (1,0)); its unique sink is stage id 0,
which is *not* its last-indexed stage. -/
def C9Job1 : MJob :=
  { stages := [0, 1], adj := fun x y => decide (x = 1 ∧ y = 0) }

/-- Job J2 of the C9 counter-scenario: one stage, id 2, no edges. -/
def C9Job2 : MJob :=
  { stages := [2], adj := fun _ _ => false }

/-- The initial per-stage attributes for the C9 scenario: local indices,
and J1's edge s1 → s0 reflected in the parent/child lists. -/
def C9Graph : StageGraph :=
  { idx := fun sid => if sid = 2 then 0 else sid,
    parents := fun sid => if sid = 0 then [1] else [],
    children := fun sid => if sid = 1 then [0] else [] }

/-- **C9** (code bug).  Merging J1 (unique sink = stage id 0, local index
0) with J2: the parent/child lists correctly link J1's unique sink (merged
index 0) to J2's stage, but the merged adjacency matrix records the
synthetic edge in row `base - 1 = 1` — the last-indexed stage of J1, not
its sink — so the matrix edge (1, 2) disagrees with the lists' edge
(0 → 2), contradicting the claim (and env.py's own docstring, line 346)
that the matrix edge leaves the unique sink and that the lists are updated
symmetrically to the matrix. -/
theorem merge_jobs_edge_from_wrong_row :
    ∃ st : MergeState, merge_jobs [C9Job1, C9Job2] C9Graph = .ok st ∧
      st.graph.idx 0 = 0 ∧
      st.graph.idx 1 = 1 ∧
      st.graph.idx 2 = 2 ∧
      st.graph.children 0 = [2] ∧
      st.graph.parents 2 = [0] ∧
      st.adj 1 0 = true ∧
      st.adj 0 2 = false ∧
      st.adj 1 2 = true := by
  refine ⟨_, rfl, ?_, ?_, ?_, ?_, ?_, ?_, ?_, ?_⟩ <;> rfl

end RLSched
